import Mathlib

/-!
Verification of the job-runner core of `infinito-deployer`.

This file shallowly embeds the parts of the repository that the claims
C1..C10 are about:

* `apps/api/services/job_runner/secrets.py` — secret collection and masking
* `apps/api/services/job_runner/runner.py` — output splitting and the reader task
* `apps/api/services/job_runner/log_hub.py` — the publish/subscribe log hub
* `apps/api/services/job_runner/service.py` — create / get / cancel / finalize
* `apps/api/services/job_runner/persistence.py` — metadata load and masked request
* `apps/api/services/job_runner/container_runner.py` — container backend config
* `apps/api/api/routes/deployments.py` — the SSE helpers

Text is modeled as `List Char` (`Str` below).  Python `while` loops are
modeled by structural recursion on an explicit fuel argument that is always
initialised with the length of the scanned list, which over-approximates the
number of iterations of the loop (each iteration consumes at least one
character); lemmas show the result does not depend on the fuel once it is
sufficient.  Filesystem state is modeled as a per-job record, and the job
store as a function from job ids to records.
-/

namespace Infinito

abbrev Str := List Char

/-- Python `str.strip()` whitespace set (the ASCII part actually exercised
by the code: identifiers, env values and key lines). -/
def isPySpace (c : Char) : Bool :=
  c = ' ' || c = '\t' || c = '\n' || c = '\r' || c = '\x0b' || c = '\x0c'

/-- Python `str.strip()`. -/
def pyStrip (s : Str) : Str :=
  ((s.dropWhile isPySpace).reverse.dropWhile isPySpace).reverse

/-- Python `opt or default` on an optional string: `None` and `""` are falsy. -/
def pyOrStr (o : Option Str) (d : Str) : Str :=
  match o with
  | none => d
  | some s => if s = [] then d else s

/-- `(os.getenv(X) or "").strip()`. -/
def envStrip (o : Option Str) : Str :=
  pyStrip (o.getD [])

/-! ## Line splitting

`runner._split_stream_buffer` and `deployments._split_log_lines`: repeatedly
split the buffered chunk at whichever of `'\n'` or bare `'\r'` occurs first
and re-buffer the remainder after the last terminator.  Both Python functions
have the same body; both are embedded and proved equal. -/

/-- `str.find(c)` for a single character: index of the first occurrence
(`none` = Python `-1`). -/
def findCharIdx (c : Char) : Str → Option Nat
  | [] => none
  | d :: rest => if d = c then some 0 else (findCharIdx c rest).map (· + 1)

/-- One faithful transcription of the `while True` loop shared by
`_split_stream_buffer` (runner.py) and `_split_log_lines` (deployments.py):
`idx_n`/`idx_r` are the first indexes of `'\n'` / `'\r'` (`none` = Python
`-1`), the line is the part before the smaller index, and the loop resumes
on the part after it.  `fuel` bounds the number of iterations. -/
def splitGo : Nat → Str → List Str × Str
  | 0, buffer => ([], buffer)
  | fuel + 1, buffer =>
    let idxN := findCharIdx '\n' buffer
    let idxR := findCharIdx '\r' buffer
    match idxN, idxR with
    | none, none => ([], buffer)
    | none, some ir =>
      let r := splitGo fuel (buffer.drop (ir + 1))
      (buffer.take ir :: r.1, r.2)
    | some iN, none =>
      let r := splitGo fuel (buffer.drop (iN + 1))
      (buffer.take iN :: r.1, r.2)
    | some iN, some ir =>
      let idx := if iN < ir then iN else ir
      let r := splitGo fuel (buffer.drop (idx + 1))
      (buffer.take idx :: r.1, r.2)

/-- `runner._split_stream_buffer`. -/
def split_stream_buffer (buffer : Str) : List Str × Str :=
  splitGo buffer.length buffer

/-- `deployments._split_log_lines` (same body as `_split_stream_buffer`). -/
def splitLogGo : Nat → Str → List Str × Str
  | 0, buffer => ([], buffer)
  | fuel + 1, buffer =>
    let idxN := findCharIdx '\n' buffer
    let idxR := findCharIdx '\r' buffer
    match idxN, idxR with
    | none, none => ([], buffer)
    | none, some ir =>
      let r := splitLogGo fuel (buffer.drop (ir + 1))
      (buffer.take ir :: r.1, r.2)
    | some iN, none =>
      let r := splitLogGo fuel (buffer.drop (iN + 1))
      (buffer.take iN :: r.1, r.2)
    | some iN, some ir =>
      let idx := if iN < ir then iN else ir
      let r := splitLogGo fuel (buffer.drop (idx + 1))
      (buffer.take idx :: r.1, r.2)

/-- `deployments._split_log_lines`. -/
def split_log_lines (buffer : Str) : List Str × Str :=
  splitLogGo buffer.length buffer

/-! ## Log hub (`log_hub.py`) -/

/-- A subscriber queue: `queue.Queue(maxsize=...)`.  `put_nowait` raises
`Full` (and the hub skips the line) iff the queue is bounded and at
capacity. -/
structure SubQueue where
  maxsize : Nat
  items : List Str
deriving DecidableEq, Repr

/-- `queue.Queue.put_nowait` as used by `LogHub.publish`: the `Full`
exception is caught and the line dropped, so a full queue is unchanged. -/
def putNowaitOrSkip (line : Str) (q : SubQueue) : SubQueue :=
  if q.items.length < q.maxsize then { q with items := q.items ++ [line] } else q

/-- The hub state: per-job bounded replay buffer (`deque(maxlen=buffer_size)`)
and per-job subscriber list.  A missing dict key is observationally the empty
buffer / empty subscriber list, which is how `publish`/`subscribe` read them
(`setdefault` / `get(job_id, deque())`), so both maps are total functions. -/
structure LogHub where
  bufferSize : Nat
  buffers : Str → List Str
  subscribers : Str → List SubQueue

/-- `LogHub.__init__(buffer_size=200)`. -/
def LogHub.init (bufferSize : Nat) : LogHub :=
  { bufferSize := bufferSize, buffers := fun _ => [], subscribers := fun _ => [] }

/-- `deque(maxlen=n).append`: keep the most recent `n` elements, evicting the
oldest first. -/
def lastN (n : Nat) (l : List Str) : List Str :=
  l.drop (l.length - n)

/-- `LogHub.publish`: append to the job's bounded replay buffer, then a
non-blocking `put_nowait` to every currently-registered subscriber queue,
skipping full queues. -/
def LogHub.publish (h : LogHub) (jobId : Str) (line : Str) : LogHub :=
  { h with
    buffers := fun j =>
      if j = jobId then lastN h.bufferSize (h.buffers jobId ++ [line]) else h.buffers j
    subscribers := fun j =>
      if j = jobId then (h.subscribers jobId).map (putNowaitOrSkip line) else h.subscribers j }

/-- `LogHub.subscribe`: register a fresh bounded queue (maxsize 1000) and
return it together with a snapshot of the replay buffer, atomically. -/
def LogHub.subscribe (h : LogHub) (jobId : Str) : LogHub × SubQueue × List Str :=
  let q : SubQueue := { maxsize := 1000, items := [] }
  ({ h with
      subscribers := fun j =>
        if j = jobId then h.subscribers jobId ++ [q] else h.subscribers j },
    q, h.buffers jobId)

/-- Publishing a whole list of lines in order. -/
def LogHub.publishAll (h : LogHub) (jobId : Str) (lines : List Str) : LogHub :=
  lines.foldl (fun acc line => acc.publish jobId line) h

/-! ## Job metadata model (`service.py`, `persistence.py`) -/

/-- The `status` values of `job.json` (`JobStatus` literal in
`deployment_job.py`). -/
inductive JStatus where
  | queued
  | running
  | succeeded
  | failed
  | canceled
deriving DecidableEq, Repr

/-- A parsed, non-empty `job.json` record.  Timestamps are opaque strings
(`utc_iso()` values); `none` models a JSON `null` / missing key. -/
structure JMeta where
  status : Option JStatus := none
  created_at : Option Str := none
  started_at : Option Str := none
  finished_at : Option Str := none
  pid : Option Int := none
  exit_code : Option Int := none
  container_id : Option Str := none
deriving DecidableEq, Repr

/-- `load_json` of a missing or unparsable file: the empty dict. -/
def emptyMeta : JMeta := {}

/-- `meta.get("status") in {"succeeded", "failed", "canceled"}`; a missing
status (`None`) is in no set. -/
def metaTerminal (m : JMeta) : Bool :=
  match m.status with
  | some .succeeded => true
  | some .failed => true
  | some .canceled => true
  | _ => false

/-- Per-job filesystem/in-memory state as `JobRunnerService` observes it:
whether the job directory exists, the content of `job.json`
(`none` = missing, unparsable or empty — exactly the cases where
`load_json` yields the falsy `{}`), whether the ephemeral `id_rsa` exists,
and whether `_secret_store` holds an entry for the job. -/
structure JobRec where
  dirExists : Bool := false
  meta : Option JMeta := none
  sshKeyExists : Bool := false
  secretEntry : Bool := false
deriving DecidableEq, Repr

/-- The jobs root: one record per job id. -/
def Store := Str → JobRec

def Store.update (st : Store) (k : Str) (r : JobRec) : Store :=
  fun k' => if k' = k then r else st k'

/-- `JobRunnerService.cancel`.  `terminate_process_group` and
`stop_container` are best-effort external effects with no observable result
in the metadata model; the metadata write, the `id_rsa` unlink and the
secret-store pop are modeled.  Returns the bool result and the new store. -/
def cancel (st : Store) (job_id : Str) (now : Str) : Bool × Store :=
  let rid := pyStrip job_id
  if rid = [] then (false, st)
  else
    match (st rid).meta with
    | none => (false, st)
    | some m =>
      if metaTerminal m then (true, st)
      else
        (true,
          st.update rid
            { st rid with
              meta := some { m with status := some .canceled, finished_at := some now },
              sshKeyExists := false,
              secretEntry := false })

/-- The metadata transformation at the end of `_wait_and_finalize`, after
`proc.wait()` returned `rc`: keep `canceled` and only back-fill a falsy
`finished_at`; otherwise stamp `finished_at`, `exit_code` and the final
status. -/
def finalizeMeta (m : JMeta) (rc : Int) (now : Str) : JMeta :=
  if m.status = some .canceled then
    { m with finished_at := some (pyOrStr m.finished_at now) }
  else
    { m with
      finished_at := some now,
      exit_code := some rc,
      status := some (if rc = 0 then .succeeded else .failed) }

/-- `JobRunnerService._wait_and_finalize` on the store: the `finally` block
closes the log, unlinks `id_rsa` and pops the secret entry; then the
metadata is re-loaded (missing/unparsable → `{}`) and rewritten through
`finalizeMeta`. -/
def waitAndFinalize (st : Store) (job_id : Str) (rc : Int) (now : Str) : Store :=
  let rec0 := st job_id
  let m := rec0.meta.getD emptyMeta
  st.update job_id
    { rec0 with
      meta := some (finalizeMeta m rc now),
      sshKeyExists := false,
      secretEntry := false }

/-- The job snapshot assembled by `JobRunnerService.get`
(`DeploymentJobOut`; the echoed path strings are derived from the id and
carry no further information). -/
structure Snapshot where
  job_id : Str
  status : JStatus
  created_at : Str
  started_at : Option Str
  finished_at : Option Str
  pid : Option Int
  exit_code : Option Int
  container_id : Option Str
deriving DecidableEq, Repr

/-- `JobRunnerService.get`: 404 when the (stripped) id is empty or the job
directory does not exist; otherwise build the snapshot from the loaded
metadata, defaulting a falsy `status` to `queued` and a falsy `created_at`
to `utc_iso()` (`now`). -/
def get (st : Store) (job_id : Str) (now : Str) : Except Nat Snapshot :=
  let rid := pyStrip job_id
  if rid = [] then .error 404
  else if !(st rid).dirExists then .error 404
  else
    let md := (st rid).meta.getD emptyMeta
    .ok
      { job_id := rid
        status := (md.status).getD .queued
        created_at := pyOrStr md.created_at now
        started_at := md.started_at
        finished_at := md.finished_at
        pid := md.pid
        exit_code := md.exit_code
        container_id := md.container_id }

/-! ## Container backend configuration (`container_runner.py`) -/

/-- An HTTP error raised to the caller (`fastapi.HTTPException`). -/
structure HttpErr where
  status : Nat
  detail : Str
deriving DecidableEq, Repr

/-- A `pathlib.Path`, reduced to what the container runner uses of it:
whether it is absolute and its non-empty segments. -/
structure PathM where
  absolute : Bool
  segs : List Str
deriving DecidableEq, Repr

/-- Split a string on a separator character (used to parse `/`-paths). -/
def splitOnChar (sep : Char) : Str → List Str
  | [] => [[]]
  | c :: rest =>
    let r := splitOnChar sep rest
    if c = sep then [] :: r
    else
      match r with
      | [] => [[c]]
      | hd :: tl => (c :: hd) :: tl

/-- `pathlib.Path(s)` for the POSIX strings handled here. -/
def parsePath (s : Str) : PathM :=
  { absolute := s.head? = some '/', segs := (splitOnChar '/' s).filter (· ≠ []) }

/-- `Path.relative_to`: defined iff `base` is an ancestor; yields the
relative remainder, raises (here: `none`) otherwise. -/
def relativeTo (p base : PathM) : Option PathM :=
  if p.absolute = base.absolute && decide (base.segs <+: p.segs) then
    some { absolute := false, segs := p.segs.drop base.segs.length }
  else none

/-- The environment variables consumed by `load_container_config` and
`resolve_host_job_dir` (`None` = unset), plus the one filesystem probe the
loader performs (`Path(repo_host_path).is_dir()`). -/
structure ContainerEnv where
  job_runner_image : Option Str := none
  infinito_nexus_image : Option Str := none
  job_runner_repo_dir : Option Str := none
  infinito_src_dir : Option Str := none
  job_runner_workdir : Option Str := none
  docker_network_name : Option Str := none
  job_runner_repo_host_path : Option Str := none
  repo_host_path_is_dir : Bool := false
  skip_cleanup : Bool := false
  skip_build : Bool := false
  state_dir : Option Str := none
  state_host_path : Option Str := none

/-- `ContainerRunnerConfig` (extra docker args omitted: they are opaque to
every claim). -/
structure CContainerCfg where
  image : Str
  repo_dir : Str
  workdir : Str
  network : Option Str
  repo_host_path : Option Str
  skip_cleanup : Bool
  skip_build : Bool
deriving DecidableEq, Repr

/-- `_require_absolute`. -/
def require_absolute (path : Str) (label : Str) : Except HttpErr PathM :=
  let p := parsePath path
  if !p.absolute then
    .error ⟨500, label ++ (" must be an absolute path when using JOB_RUNNER_BACKEND=container").toList⟩
  else .ok p

/-- `load_container_config`. -/
def load_container_config (env : ContainerEnv) : Except HttpErr CContainerCfg :=
  let image :=
    pyStrip (pyOrStr env.job_runner_image (pyOrStr env.infinito_nexus_image []))
  if image = [] then
    .error ⟨500, ("JOB_RUNNER_IMAGE (or INFINITO_NEXUS_IMAGE) must be set for container runner").toList⟩
  else
    let repo_dir :=
      pyStrip (pyOrStr env.job_runner_repo_dir
        (pyOrStr env.infinito_src_dir ("/opt/src/infinito").toList))
    let workdir := pyStrip (pyOrStr env.job_runner_workdir ("/workspace").toList)
    let network := let n := envStrip env.docker_network_name; if n = [] then none else some n
    let rhp := envStrip env.job_runner_repo_host_path
    let rhpOpt : Option Str := if rhp = [] then none else some rhp
    match rhpOpt with
    | none =>
      .ok { image := image, repo_dir := repo_dir, workdir := workdir, network := network,
            repo_host_path := none, skip_cleanup := env.skip_cleanup, skip_build := env.skip_build }
    | some raw =>
      match require_absolute raw ("JOB_RUNNER_REPO_HOST_PATH").toList with
      | .error e => .error e
      | .ok _ =>
        if !env.repo_host_path_is_dir then
          .error ⟨500, ("JOB_RUNNER_REPO_HOST_PATH is invalid").toList⟩
        else
          .ok { image := image, repo_dir := repo_dir, workdir := workdir, network := network,
                repo_host_path := some raw, skip_cleanup := env.skip_cleanup,
                skip_build := env.skip_build }

/-- `resolve_host_job_dir`: translate the in-container job directory to its
host-visible path via the `STATE_DIR → STATE_HOST_PATH` mapping; every
misconfiguration is a hard 500 before anything is mounted. -/
def resolve_host_job_dir (env : ContainerEnv) (job_dir : PathM) : Except HttpErr PathM :=
  let stateDir := parsePath (pyStrip (pyOrStr env.state_dir ("/state").toList))
  let hostState := envStrip env.state_host_path
  if hostState = [] then
    .error ⟨500, ("STATE_HOST_PATH must be set for container runner volume mounts").toList⟩
  else
    match require_absolute hostState ("STATE_HOST_PATH").toList with
    | .error e => .error e
    | .ok hostPath =>
      match relativeTo job_dir stateDir with
      | none => .error ⟨500, ("job_dir is not inside STATE_DIR").toList⟩
      | some rel => .ok { absolute := hostPath.absolute, segs := hostPath.segs ++ rel.segs }

/-! ## `JobRunnerService.create` — metadata/launch skeleton

`create` is embedded as the sequence of `job.json` writes and the
launch attempt, after the request has been persisted.  The parts with no
bearing on C6/C9 (inventory copying, vars assembly, `run.sh` generation)
only touch other files and are omitted; the backend validation, the
container-config stage, and the success/failure branches around
`start_process` follow the source order.  The launch attempt is an oracle
`Except Str Int` (error message or pid): the theorems quantify over it. -/

/-- The fresh metadata record written first by `create` (status `queued`). -/
def queuedMeta (now : Str) : JMeta :=
  { status := some .queued, created_at := some now }

/-- Outcome of the pre-launch configuration stage: optionally a
`container_id` to record in the metadata (container backend only). -/
def containerConfigStage (env : ContainerEnv) (job_dir : PathM) (job_id : Str) :
    Except HttpErr (Option Str) :=
  match load_container_config env with
  | .error e => .error e
  | .ok _ =>
    match resolve_host_job_dir env job_dir with
    | .error e => .error e
    | .ok _ => .ok (some (("infinito-job-").toList ++ job_id))

/-- `JobRunnerService.create`, reduced to its `job.json` writes and result:
returns the caller-visible outcome together with the ordered list of
metadata records written.  `backendOk` is `runner_backend() in {"local",
"container"}`; `configStage` is `.ok none` for the local backend and
`containerConfigStage ...` for the container backend; `launch` is the
`start_process` outcome. -/
def createRun (backendOk : Bool) (configStage : Except HttpErr (Option Str))
    (launch : Except Str Int) (now : Str) : Except HttpErr JMeta × List JMeta :=
  let meta0 := queuedMeta now
  if !backendOk then
    (.error ⟨500, ("JOB_RUNNER_BACKEND must be 'local' or 'container'").toList⟩, [meta0])
  else
    match configStage with
    | .error e => (.error e, [meta0])
    | .ok cid? =>
      let meta1 :=
        match cid? with
        | some cid => { meta0 with container_id := some cid }
        | none => meta0
      let writes1 :=
        match cid? with
        | some _ => [meta0, meta1]
        | none => [meta0]
      match launch with
      | .error msg =>
        let metaF := { meta1 with status := some .failed, finished_at := some now,
                                  exit_code := some 127 }
        (.error ⟨500, ("failed to start runner: ").toList ++ msg⟩, writes1 ++ [metaF])
      | .ok pid =>
        let metaR := { meta1 with status := some .running, started_at := some now,
                                  pid := some pid }
        (.ok metaR, writes1 ++ [metaR])

/-! ## Secret masking (`secrets.py`)

`re.sub`-style scanning is embedded by `scanSub`: a partial match function
`tryFn` is attempted at every position, left to right; a successful match
consumes `k ≥ 1` characters and emits a replacement, a failure keeps one
character; exactly the leftmost/non-overlapping semantics of `str.replace`
and `re.sub`.  Each concrete pattern of the source is transcribed as its own
`tryFn`. -/

def MASK : Str := ("********").toList

def scanSub (tryFn : Str → Option (Nat × Str)) : Nat → Str → Str
  | 0, text => text
  | fuel + 1, text =>
    match text with
    | [] => []
    | c :: rest =>
      match tryFn (c :: rest) with
      | some (k, rep) => rep ++ scanSub tryFn fuel ((c :: rest).drop k)
      | none => c :: scanSub tryFn fuel rest

/-- `str.replace(secret, MASK)` match function. -/
def tryReplace (secret : Str) (t : Str) : Option (Nat × Str) :=
  if secret ≠ [] && secret.isPrefixOf t then some (secret.length, MASK) else none

/-- `str.replace(secret, MASK)` (leftmost, non-overlapping). -/
def replaceSecret (secret : Str) (text : Str) : Str :=
  scanSub (tryReplace secret) text.length text

/-- `_dedupe` / the `seen` set of `sorted(secret_set, ...)` construction:
first occurrence kept. -/
def dedupeGo (seen : List Str) : List Str → List Str
  | [] => []
  | x :: rest => if x ∈ seen then dedupeGo seen rest else x :: dedupeGo (x :: seen) rest

def dedupe (l : List Str) : List Str := dedupeGo [] l

/-- Insertion into a length-descending list (longest first). -/
def insertByLen (x : Str) : List Str → List Str
  | [] => [x]
  | y :: rest =>
    if y.length ≤ x.length then x :: y :: rest else y :: insertByLen x rest

/-- Length-descending insertion sort. -/
def sortByLenDesc : List Str → List Str
  | [] => []
  | x :: rest => insertByLen x (sortByLenDesc rest)

/-- `sorted({s for s in secrets if s}, key=len, reverse=True)`: the
non-empty secrets, longest first.  (Set iteration order is arbitrary in the
source, so any length-descending enumeration of the distinct non-empty
secrets is a faithful model.) -/
def sortSecretsDesc (secrets : List Str) : List Str :=
  sortByLenDesc (dedupe (secrets.filter (· ≠ [])))

/-- The `for secret in sorted(...)` replacement loop of `mask_secrets`
(step 1), including the `if secret and secret in redacted` guard. -/
def maskKnownSecrets (secrets : List Str) (text : Str) : Str :=
  (sortSecretsDesc secrets).foldl
    (fun acc s => if s ≠ [] ∧ s <:+: acc then replaceSecret s acc else acc) text

/-! ### `_PRIVATE_KEY_BLOCK`:
`-----BEGIN [A-Z ]*PRIVATE KEY-----.*?-----END [A-Z ]*PRIVATE KEY-----`
(DOTALL).  The greedy `[A-Z ]*` backtracks to let `PRIVATE KEY-----`
match (largest feasible split), and the lazy `.*?` stops at the first
position where the END part matches. -/

def isUpperOrSpace (c : Char) : Bool := ('A' ≤ c && c ≤ 'Z') || c = ' '

/-- Greedy `[A-Z ]*PRIVATE KEY-----` at the head of `rest`: the largest
`k` (at most the length of the maximal `[A-Z ]` run) such that the literal
follows; `none` if no split works. -/
def pickSplit (lit : Str) (rest : Str) : Nat → Option Nat
  | 0 => if lit.isPrefixOf rest then some 0 else none
  | k + 1 =>
    if lit.isPrefixOf (rest.drop (k + 1)) then some (k + 1) else pickSplit lit rest k

/-- Length consumed by `lit ++ [A-Z ]* ++ "PRIVATE KEY-----"` at the head of
`t`, or `none`. -/
def headerLen (lit : Str) (t : Str) : Option Nat :=
  if lit.isPrefixOf t then
    let rest := t.drop lit.length
    let run := rest.takeWhile isUpperOrSpace
    match pickSplit (("PRIVATE KEY-----").toList) rest run.length with
    | some k => some (lit.length + k + (("PRIVATE KEY-----").toList).length)
    | none => none
  else none

/-- First offset (and END-match length) of
`-----END [A-Z ]*PRIVATE KEY-----` in `t` — the lazy `.*?` continuation. -/
def findEndFrom : Str → Option (Nat × Nat)
  | [] => none
  | c :: rest =>
    match headerLen (("-----END ").toList) (c :: rest) with
    | some e => some (0, e)
    | none => (findEndFrom rest).map (fun p => (p.1 + 1, p.2))

/-- Full `_PRIVATE_KEY_BLOCK` match length at the head of `t`. -/
def pemMatchLen (t : Str) : Option Nat :=
  match headerLen (("-----BEGIN ").toList) t with
  | none => none
  | some h =>
    match findEndFrom (t.drop h) with
    | none => none
    | some (j, e) => some (h + j + e)

def tryPem (t : Str) : Option (Nat × Str) :=
  (pemMatchLen t).map (fun k => (k, MASK))

/-- `_PRIVATE_KEY_BLOCK.search(text)` (is there a match anywhere?). -/
def pemFound : Str → Bool
  | [] => false
  | c :: rest => (pemMatchLen (c :: rest)).isSome || pemFound rest

/-- Step 2 of `mask_secrets`: `if _PRIVATE_KEY_BLOCK.search(r): r = sub`. -/
def pemSub (t : Str) : Str :=
  if pemFound t then scanSub tryPem t.length t else t

/-! ### `_INLINE_VALUE_PATTERNS` -/

/-- Case-insensitive literal prefix (`(?i)` on ASCII literals). -/
def ciPrefixOf : Str → Str → Bool
  | [], _ => true
  | _ :: _, [] => false
  | p :: ps, t :: ts => (p.toLower = t.toLower) && ciPrefixOf ps ts

/-- The keyword alternation of the first inline pattern, in regex order.
No keyword is a prefix of another, so at most one alternative matches at a
given position and the alternation needs no cross-alternative
backtracking. -/
def inlineKeywords : List Str :=
  [("password").toList, ("passwd").toList, ("passphrase").toList, ("secret").toList,
   ("token").toList, ("apikey").toList, ("api_key").toList, ("access_key").toList,
   ("private_key").toList]

def findKeywordAt : List Str → Str → Option Str
  | [], _ => none
  | kw :: rest, t => if ciPrefixOf kw t then some kw else findKeywordAt rest t

/-- `(?i)(KEYWORD\s*[:=]\s*)([^\s]+)` at the head of `t`: on success, the
total match length and `group(1) ++ MASK`.  (`\s` is the six-character ASCII
whitespace class, the same set as `isPySpace`.) -/
def tryKV (t : Str) : Option (Nat × Str) :=
  match findKeywordAt inlineKeywords t with
  | none => none
  | some kw =>
    let r1 := t.drop kw.length
    let ws1 := (r1.takeWhile isPySpace).length
    let r2 := r1.drop ws1
    match r2 with
    | [] => none
    | c :: r3 =>
      if c = ':' || c = '=' then
        let ws2 := (r3.takeWhile isPySpace).length
        let r4 := r3.drop ws2
        let v := r4.takeWhile (fun d => !isPySpace d)
        if v = [] then none
        else
          let g1 := kw.length + ws1 + 1 + ws2
          some (g1 + v.length, t.take g1 ++ MASK)
      else none

/-- `(?i)((?:sshpass\s+-p\s+))([^\s]+)`. -/
def trySshpass (t : Str) : Option (Nat × Str) :=
  if ciPrefixOf (("sshpass").toList) t then
    let r1 := t.drop 7
    let ws1 := (r1.takeWhile isPySpace).length
    if ws1 = 0 then none
    else
      let r2 := r1.drop ws1
      if ciPrefixOf (("-p").toList) r2 then
        let r3 := r2.drop 2
        let ws2 := (r3.takeWhile isPySpace).length
        if ws2 = 0 then none
        else
          let r4 := r3.drop ws2
          let v := r4.takeWhile (fun d => !isPySpace d)
          if v = [] then none
          else
            let g1 := 7 + ws1 + 2 + ws2
            some (g1 + v.length, t.take g1 ++ MASK)
      else none
  else none

/-- `(?i)((?:--password\s+))([^\s]+)` and `(?i)((?:--token\s+))([^\s]+)`. -/
def tryDashOpt (lit : Str) (t : Str) : Option (Nat × Str) :=
  if ciPrefixOf lit t then
    let r1 := t.drop lit.length
    let ws1 := (r1.takeWhile isPySpace).length
    if ws1 = 0 then none
    else
      let r2 := r1.drop ws1
      let v := r2.takeWhile (fun d => !isPySpace d)
      if v = [] then none
      else
        let g1 := lit.length + ws1
        some (g1 + v.length, t.take g1 ++ MASK)
  else none

/-- The four `pattern.sub(...)` passes of step 3, in source order. -/
def applyInline (t : Str) : Str :=
  let t1 := scanSub tryKV t.length t
  let t2 := scanSub trySshpass t1.length t1
  let t3 := scanSub (tryDashOpt (("--password").toList)) t2.length t2
  scanSub (tryDashOpt (("--token").toList)) t3.length t3

/-! ### `_TOKEN_VALUE` and `_JWT_VALUE` -/

/-- `[A-Za-z0-9_-]` (also the JWT segment class). -/
def tokenChar (c : Char) : Bool := c.isAlpha || c.isDigit || c = '_' || c = '-'

/-- A maximal `[A-Za-z0-9_-]` run matches `_TOKEN_VALUE` iff it is at least
20 long and contains a letter and a digit (the boundary look-arounds force
the match to be a whole maximal run; the look-aheads require a letter and a
digit inside it). -/
def tokenRunQualifies (run : Str) : Bool :=
  decide (20 ≤ run.length) && run.any Char.isAlpha && run.any Char.isDigit

def emitRun (run : Str) : Str := if tokenRunQualifies run then MASK else run

/-- `_TOKEN_VALUE.sub(MASK, t)`: replace every qualifying maximal run. -/
def tokenGo (acc : Str) : Str → Str
  | [] => emitRun acc
  | c :: rest =>
    if tokenChar c then tokenGo (acc ++ [c]) rest
    else emitRun acc ++ c :: tokenGo [] rest

def tokenValueSub (t : Str) : Str := tokenGo [] t

/-- `_TOKEN_VALUE.search(t)`: some maximal run qualifies. -/
def tokenFoundGo (acc : Str) : Str → Bool
  | [] => tokenRunQualifies acc
  | c :: rest =>
    if tokenChar c then tokenFoundGo (acc ++ [c]) rest
    else tokenRunQualifies acc || tokenFoundGo [] rest

def tokenValueFound (t : Str) : Bool := tokenFoundGo [] t

/-- `_JWT_VALUE.match(t)`:
`^[A-Za-z0-9_-]+\.[A-Za-z0-9_-]+\.[A-Za-z0-9_-]+$` — three non-empty
base64url segments; `$` also matches just before one trailing newline. -/
def jwtShaped (t : Str) : Bool :=
  let t' := if t.getLast? = some '\n' then t.dropLast else t
  match splitOnChar '.' t' with
  | [a, b, c] => a ≠ [] && b ≠ [] && c ≠ [] && (a ++ b ++ c).all tokenChar
  | _ => false

/-- `mask_secrets(text, secrets)` — the full pipeline in source order:
early return on falsy text; known-secret replacement (longest first); PEM
block wipe; inline key-value patterns; whole-string JWT check; token-run
substitution. -/
def mask_secrets (text : Str) (secrets : List Str) : Str :=
  if text = [] then text
  else
    let r1 := maskKnownSecrets secrets text
    let r2 := pemSub r1
    let r3 := applyInline r2
    if jwtShaped r3 then MASK
    else tokenValueSub r3

/-! ## Secret collection (`secrets.py::collect_secrets`) and the request -/

/-- `DeploymentAuth` (schemas/deployment.py).  `passphrase` is read by
`collect_secrets` though the schema does not declare it; schema-validated
requests always have it `none`. -/
structure DAuth where
  method : Str
  password : Option Str := none
  private_key : Option Str := none
  passphrase : Option Str := none
deriving DecidableEq, Repr

/-- `DeploymentRequest` (schemas/deployment.py), post-validation. -/
structure DRequest where
  workspace_id : Str
  deploy_target : Str
  host : Str
  user : Str
  auth : DAuth
  limit : Option Str := none
  selected_roles : List Str := []
deriving DecidableEq, Repr

/-- Python truthiness of an optional string. -/
def optTruthy (o : Option Str) : Bool :=
  match o with
  | none => false
  | some s => s ≠ []

/-- The line-break set of `str.splitlines`. -/
def isLineBreak (c : Char) : Bool :=
  c = '\n' || c = '\r' || c = '\x0b' || c = '\x0c' ||
  c = '\x1c' || c = '\x1d' || c = '\x1e' || c = '\x85' ||
  c = ' ' || c = ' '

/-- `str.splitlines()`: `"\r\n"` is one break; no trailing empty line for a
terminal break. -/
def pySplitlinesGo (acc : Str) : Str → List Str
  | [] => if acc = [] then [] else [acc]
  | '\r' :: '\n' :: rest => acc :: pySplitlinesGo [] rest
  | c :: rest =>
    if isLineBreak c then acc :: pySplitlinesGo [] rest
    else pySplitlinesGo (acc ++ [c]) rest

def pySplitlines (s : Str) : List Str := pySplitlinesGo [] s

/-- `collect_secrets(req)`: password, the private key, each non-blank
stripped line of the private key, the passphrase; deduplicated. -/
def collect_secrets (req : DRequest) : List Str :=
  let s1 := if optTruthy req.auth.password then [req.auth.password.getD []] else []
  let s2 :=
    if optTruthy req.auth.private_key then
      let k := req.auth.private_key.getD []
      k :: ((pySplitlines k).map pyStrip).filter (· ≠ [])
    else []
  let s3 := if optTruthy req.auth.passphrase then [req.auth.passphrase.getD []] else []
  dedupe (s1 ++ s2 ++ s3)

/-! ## Structured documents (`mask_mapping`, `mask_request_for_persistence`,
`_build_vars`) -/

/-- JSON-ish values as produced by `model_dump` / consumed by
`atomic_write_json`. -/
inductive Jv where
  | str (s : Str)
  | num (n : Int)
  | bool (b : Bool)
  | null
  | arr (l : List Jv)
  | obj (kvs : List (Str × Jv))

/-- `_SECRET_KEYWORDS`. -/
def secretKeywords : List Str :=
  [("password").toList, ("passwd").toList, ("passphrase").toList, ("secret").toList,
   ("token").toList, ("private_key").toList, ("apikey").toList, ("api_key").toList,
   ("access_key").toList, ("client_secret").toList]

def lowerStr (s : Str) : Str := s.map Char.toLower

/-- `_is_secret_key(key)`: some keyword occurs in the lowered key. -/
def is_secret_key (k : Str) : Bool :=
  secretKeywords.any (fun kw => kw <:+: lowerStr k)

/-- `_looks_like_token(value)`. -/
def looks_like_token (v : Str) : Bool :=
  let s := pyStrip v
  if s = [] then false
  else if jwtShaped s then true
  else decide (20 ≤ s.length) && tokenValueFound s

mutual

/-- `mask_mapping(value, secrets)` with `secret_set` already filtered to the
non-empty secrets. -/
def mask_mapping (secrets : List Str) : Jv → Jv
  | .obj kvs => .obj (mask_mappingKvs secrets kvs)
  | .arr l => .arr (mask_mappingList secrets l)
  | .str s =>
    if s ∈ secrets.filter (· ≠ []) || looks_like_token s then .str MASK
    else .str (mask_secrets s (secrets.filter (· ≠ [])))
  | v => v

def mask_mappingList (secrets : List Str) : List Jv → List Jv
  | [] => []
  | v :: rest => mask_mapping secrets v :: mask_mappingList secrets rest

def mask_mappingKvs (secrets : List Str) : List (Str × Jv) → List (Str × Jv)
  | [] => []
  | (k, v) :: rest =>
    (if is_secret_key k then (k, .str MASK) else (k, mask_mapping secrets v))
      :: mask_mappingKvs secrets rest

end

def optJv (o : Option Str) : Jv :=
  match o with
  | none => .null
  | some s => .str s

/-- `mask_request_for_persistence(req)` — the `request.json` document:
`model_dump` in field order, with `auth` replaced by `{"method": ...}`
(password/private key dropped) and `inventory_vars` (absent from the
schema, hence always `{}`) passed through `mask_mapping`. -/
def mask_request_for_persistence (req : DRequest) : Jv :=
  .obj
    [(("workspace_id").toList, .str req.workspace_id),
     (("deploy_target").toList, .str req.deploy_target),
     (("host").toList, .str req.host),
     (("user").toList, .str req.user),
     (("auth").toList, .obj [(("method").toList, .str req.auth.method)]),
     (("limit").toList, optJv req.limit),
     (("selected_roles").toList, .arr (req.selected_roles.map .str)),
     (("inventory_vars").toList, mask_mapping (collect_secrets req) (.obj []))]

/-- `JobRunnerService._build_vars` — the `vars.json`/`vars.yml` document
(before the optional workspace-roles override of `selected_roles`):
the selected roles, plus either the ephemeral key-file path or the
`ansible_password` placeholder.  No masking is applied to it. -/
def build_vars (req : DRequest) (sshKeyPath : Str) : Jv :=
  .obj
    ((("selected_roles").toList, .arr (req.selected_roles.map .str)) ::
      (if req.auth.method = ("private_key").toList && optTruthy req.auth.private_key then
        [(("ansible_ssh_private_key_file").toList, .str sshKeyPath)]
      else if req.auth.method = ("password").toList then
        [(("ansible_password").toList, .str ("<provided_at_runtime>").toList)]
      else []))

/-- `create`'s override: when the workspace inventory yields role names,
they replace `selected_roles` in the vars document. -/
def varsDoc (req : DRequest) (sshKeyPath : Str) (rolesFromInventory : List Str) : Jv :=
  match build_vars req sshKeyPath with
  | .obj kvs =>
    if rolesFromInventory = [] then .obj kvs
    else
      .obj (kvs.map (fun kv =>
        if kv.1 = ("selected_roles").toList then
          (kv.1, .arr (rolesFromInventory.map .str))
        else kv))
  | v => v

mutual

/-- All string atoms in value position of a document (map keys are listed
separately by `jvKeys`). -/
def jvStrings : Jv → List Str
  | .str s => [s]
  | .arr l => jvStringsList l
  | .obj kvs => jvStringsKvs kvs
  | _ => []

def jvStringsList : List Jv → List Str
  | [] => []
  | v :: rest => jvStrings v ++ jvStringsList rest

def jvStringsKvs : List (Str × Jv) → List Str
  | [] => []
  | (_, v) :: rest => jvStrings v ++ jvStringsKvs rest

end

/-! ## The reader task (`runner.py::start_process._reader`) -/

/-- The raw complete lines determined by a chunk sequence: repeatedly run
the splitter on `buffer ++ chunk`, carry the remainder, and flush a
non-empty trailing partial chunk at EOF. -/
def rawLinesRun : Str → List Str → List Str
  | buf, [] => if buf = [] then [] else [buf]
  | buf, chunk :: rest =>
    let r := split_stream_buffer (buf ++ chunk)
    r.1 ++ rawLinesRun r.2 rest

/-- The `_reader` loop: same traversal, but every line (and the trailing
partial chunk) goes through `_emit`, i.e. `mask_secrets`, before being
written to `job.log` and published to the Log Hub. -/
def readerRun (secrets : List Str) : Str → List Str → List Str
  | buf, [] => if buf = [] then [] else [mask_secrets buf secrets]
  | buf, chunk :: rest =>
    let r := split_stream_buffer (buf ++ chunk)
    r.1.map (fun l => mask_secrets l secrets) ++ readerRun secrets r.2 rest

/-- `job.log` content: `_emit` writes `masked + "\n"` for every emission. -/
def logJoin (lines : List Str) : Str :=
  lines.foldr (fun l acc => l ++ '\n' :: acc) []

def readerLogContent (secrets : List Str) (chunks : List Str) : Str :=
  logJoin (readerRun secrets [] chunks)

/-! ## Spec reference algorithm for `mask` (§4.4), for claim C2

Steps (1)–(3) of the spec describe exactly the source's replacement loop,
PEM wipe and inline passes; step (4) is transcribed literally from the
spec's words for comparison with the code. -/

/-- The entire string matches `_TOKEN_VALUE` (a single maximal
high-entropy run). -/
def wholeTokenShaped (r : Str) : Bool :=
  r.all tokenChar && tokenRunQualifies r

/-- Modelled from the spec (§4.4 `mask`, step 4 literal): “if, after the
above, the *entire* string still matches a JWT-shaped or high-entropy
opaque-token pattern, replace the whole string.” -/
def specMaskStep4Literal (r : Str) : Str :=
  if jwtShaped r || wholeTokenShaped r then MASK else r

/-- Modelled from the spec: the four-step reference algorithm of §4.4 with
step (4) read literally (whole-string replacement only). -/
def specMaskReference (text : Str) (secrets : List Str) : Str :=
  specMaskStep4Literal (applyInline (pemSub (maskKnownSecrets secrets text)))

/-- Step (4) as the code actually behaves: whole-string JWT replacement,
otherwise replacement of every maximal high-entropy token run. -/
def specMaskStep4Amended (r : Str) : Str :=
  if jwtShaped r then MASK else tokenValueSub r

/-- The amended reference algorithm (steps 1–3 unchanged, step 4 amended). -/
def specMaskAmended (text : Str) (secrets : List Str) : Str :=
  specMaskStep4Amended (applyInline (pemSub (maskKnownSecrets secrets text)))

/-- A concrete password-auth request whose password the caller also
supplies as a role name (exercising the unmasked `selected_roles` field). -/
def cexReq : DRequest :=
  { workspace_id := ("w1").toList
    deploy_target := ("server").toList
    host := ("h").toList
    user := ("u").toList
    auth := { method := ("password").toList, password := some (("hunter2").toList) }
    limit := none
    selected_roles := [("hunter2").toList] }

/-- A concrete well-behaved password-auth request. -/
def witReq : DRequest :=
  { workspace_id := ("w1").toList
    deploy_target := ("server").toList
    host := ("h").toList
    user := ("u").toList
    auth := { method := ("password").toList, password := some (("hunter2").toList) }
    limit := none
    selected_roles := [("base").toList] }

/-- The shape shared by every replacement the masking scanners emit: at
least one character consumed, and the replacement is a leading slice of the
scanned text followed by the mask marker. -/
def GoodTry (tryFn : Str → Option (Nat × Str)) : Prop :=
  ∀ t k rep, tryFn t = some (k, rep) → 1 ≤ k ∧ ∃ g, rep = t.take g ++ MASK

/-! # Theorems -/

/-! ## Line-splitter lemmas -/

theorem findCharIdx_none {c : Char} {l : Str} (h : ∀ d ∈ l, d ≠ c) :
    findCharIdx c l = none := by
  induction l with
  | nil => rfl
  | cons d rest ih =>
    have hd : d ≠ c := h d (List.mem_cons_self d rest)
    simp only [findCharIdx, if_neg hd]
    rw [ih (fun e he => h e (List.mem_cons_of_mem d he))]
    rfl

theorem findCharIdx_append_free {c : Char} {a l : Str} (h : ∀ d ∈ a, d ≠ c) :
    findCharIdx c (a ++ l) = (findCharIdx c l).map (· + a.length) := by
  induction a with
  | nil => simp
  | cons d rest ih =>
    have hd : d ≠ c := h d (List.mem_cons_self d rest)
    show findCharIdx c (d :: (rest ++ l)) = (findCharIdx c l).map (· + (d :: rest).length)
    rw [findCharIdx, if_neg hd, ih (fun e he => h e (List.mem_cons_of_mem d he))]
    cases findCharIdx c l with
    | none => rfl
    | some j =>
      simp only [Option.map_some', Option.some.injEq, List.length_cons]
      omega

theorem findCharIdx_lt {c : Char} : ∀ {l : Str} {i : Nat},
    findCharIdx c l = some i → i < l.length := by
  intro l
  induction l with
  | nil => intro i h; simp [findCharIdx] at h
  | cons d rest ih =>
    intro i h
    by_cases hd : d = c
    · simp [findCharIdx, hd] at h
      simp [List.length_cons]
      omega
    · simp only [findCharIdx, if_neg hd] at h
      cases hfd : findCharIdx c rest with
      | none => rw [hfd] at h; simp at h
      | some j =>
        rw [hfd] at h
        simp at h
        have := ih hfd
        simp [← h]
        omega

theorem splitGo_nil : ∀ f : Nat, splitGo f [] = ([], []) := by
  intro f
  cases f with
  | zero => rfl
  | succ k => rfl

theorem splitGo_fuel : ∀ (f1 : Nat) (buf : Str) (f2 : Nat),
    buf.length ≤ f1 → buf.length ≤ f2 → splitGo f1 buf = splitGo f2 buf := by
  intro f1
  induction f1 with
  | zero =>
    intro buf f2 h1 _
    have hb : buf = [] := List.eq_nil_of_length_eq_zero (Nat.le_zero.mp h1)
    subst hb
    rw [splitGo_nil, splitGo_nil]
  | succ k ih =>
    intro buf f2 h1 h2
    cases buf with
    | nil => rw [splitGo_nil, splitGo_nil]
    | cons c rest =>
      cases f2 with
      | zero => simp at h2
      | succ m =>
        cases hN : findCharIdx '\n' (c :: rest) with
        | none =>
          cases hR : findCharIdx '\r' (c :: rest) with
          | none => simp only [splitGo, hN, hR]
          | some ir =>
            have hlt := findCharIdx_lt hR
            have hlen : ((c :: rest).drop (ir + 1)).length ≤ k := by
              simp only [List.length_drop, List.length_cons] at *
              omega
            have hlen2 : ((c :: rest).drop (ir + 1)).length ≤ m := by
              simp only [List.length_drop, List.length_cons] at *
              omega
            simp only [splitGo, hN, hR]
            rw [ih _ m hlen hlen2]
        | some iN =>
          have hltN := findCharIdx_lt hN
          cases hR : findCharIdx '\r' (c :: rest) with
          | none =>
            have hlen : ((c :: rest).drop (iN + 1)).length ≤ k := by
              simp only [List.length_drop, List.length_cons] at *
              omega
            have hlen2 : ((c :: rest).drop (iN + 1)).length ≤ m := by
              simp only [List.length_drop, List.length_cons] at *
              omega
            simp only [splitGo, hN, hR]
            rw [ih _ m hlen hlen2]
          | some ir =>
            have hltR := findCharIdx_lt hR
            have hlenN : ((c :: rest).drop (iN + 1)).length ≤ k := by
              simp only [List.length_drop, List.length_cons] at *
              omega
            have hlenN2 : ((c :: rest).drop (iN + 1)).length ≤ m := by
              simp only [List.length_drop, List.length_cons] at *
              omega
            have hlenR : ((c :: rest).drop (ir + 1)).length ≤ k := by
              simp only [List.length_drop, List.length_cons] at *
              omega
            have hlenR2 : ((c :: rest).drop (ir + 1)).length ≤ m := by
              simp only [List.length_drop, List.length_cons] at *
              omega
            simp only [splitGo, hN, hR]
            by_cases hcmp : iN < ir
            · simp only [if_pos hcmp]
              rw [ih _ m hlenN hlenN2]
            · simp only [if_neg hcmp]
              rw [ih _ m hlenR hlenR2]

theorem splitLogGo_eq_splitGo : ∀ (f : Nat) (buf : Str), splitLogGo f buf = splitGo f buf := by
  intro f
  induction f with
  | zero => intro buf; rfl
  | succ k ih =>
    intro buf
    cases buf with
    | nil => rfl
    | cons c rest =>
      cases hN : findCharIdx '\n' (c :: rest) with
      | none =>
        cases hR : findCharIdx '\r' (c :: rest) with
        | none => simp only [splitLogGo, splitGo, hN, hR]
        | some ir => simp only [splitLogGo, splitGo, hN, hR]; rw [ih]
      | some iN =>
        cases hR : findCharIdx '\r' (c :: rest) with
        | none => simp only [splitLogGo, splitGo, hN, hR]; rw [ih]
        | some ir =>
          simp only [splitLogGo, splitGo, hN, hR]
          by_cases hcmp : iN < ir
          · simp only [if_pos hcmp]; rw [ih]
          · simp only [if_neg hcmp]; rw [ih]

theorem split_stream_buffer_no_term {b : Str} (h : ∀ c ∈ b, c ≠ '\n' ∧ c ≠ '\r') :
    split_stream_buffer b = ([], b) := by
  unfold split_stream_buffer
  cases b with
  | nil => rw [splitGo_nil]
  | cons c rest =>
    have hN : findCharIdx '\n' (c :: rest) = none :=
      findCharIdx_none (fun d hd => (h d hd).1)
    have hR : findCharIdx '\r' (c :: rest) = none :=
      findCharIdx_none (fun d hd => (h d hd).2)
    simp only [List.length_cons, splitGo, hN, hR]

theorem split_stream_buffer_peel {a rest : Str} {t : Char}
    (ha : ∀ c ∈ a, c ≠ '\n' ∧ c ≠ '\r') (ht : t = '\n' ∨ t = '\r') :
    split_stream_buffer (a ++ t :: rest) =
      (a :: (split_stream_buffer rest).1, (split_stream_buffer rest).2) := by
  have hlen : (a ++ t :: rest).length = (a.length + rest.length) + 1 := by
    simp
    omega
  have htake : (a ++ t :: rest).take a.length = a := List.take_left a (t :: rest)
  have hdrop : (a ++ t :: rest).drop (a.length + 1) = rest := by
    have : a ++ t :: rest = (a ++ [t]) ++ rest := by simp
    rw [this]
    have hl : (a ++ [t]).length = a.length + 1 := by simp
    exact List.drop_left' hl
  have hfree : ∀ c, (∀ d ∈ a, d ≠ c) → t ≠ c →
      findCharIdx c (a ++ t :: rest) = (findCharIdx c rest).map (· + (a.length + 1)) := by
    intro c hac htc
    have hsplit : a ++ t :: rest = (a ++ [t]) ++ rest := by simp
    have hfr : ∀ d ∈ a ++ [t], d ≠ c := by
      intro d hd
      rcases List.mem_append.mp hd with hd1 | hd2
      · exact hac d hd1
      · rw [List.mem_singleton.mp hd2]; exact htc
    rw [hsplit, findCharIdx_append_free hfr]
    cases findCharIdx c rest with
    | none => rfl
    | some j =>
      simp only [Option.map_some', Option.some.injEq, List.length_append,
        List.length_cons, List.length_nil]
  have hhit : ∀ c, (∀ d ∈ a, d ≠ c) → t = c →
      findCharIdx c (a ++ t :: rest) = some a.length := by
    intro c hac htc
    rw [findCharIdx_append_free hac]
    subst htc
    simp [findCharIdx]
  have hrec : splitGo (a.length + rest.length) rest = splitGo rest.length rest :=
    splitGo_fuel (a.length + rest.length) rest rest.length (by omega) (by omega)
  unfold split_stream_buffer
  rw [hlen]
  rcases ht with ht | ht
  · -- first terminator is '\n' at index a.length
    have hNidx : findCharIdx '\n' (a ++ t :: rest) = some a.length :=
      hhit '\n' (fun d hd => (ha d hd).1) ht
    cases hR : findCharIdx '\r' (a ++ t :: rest) with
    | none =>
      simp only [splitGo, hNidx, hR, htake, hdrop, hrec]
    | some ir =>
      have hmap : findCharIdx '\r' (a ++ t :: rest) =
          (findCharIdx '\r' rest).map (· + (a.length + 1)) := by
        apply hfree '\r' (fun d hd => (ha d hd).2)
        rw [ht]; decide
      rw [hmap] at hR
      cases hfr : findCharIdx '\r' rest with
      | none => rw [hfr] at hR; simp at hR
      | some j =>
        have hij : a.length < j + (a.length + 1) := by omega
        simp only [splitGo, hNidx, hmap, hfr, Option.map_some', if_pos hij, htake, hdrop, hrec]
  · -- first terminator is '\r' at index a.length
    have hRidx : findCharIdx '\r' (a ++ t :: rest) = some a.length :=
      hhit '\r' (fun d hd => (ha d hd).2) ht
    cases hN : findCharIdx '\n' (a ++ t :: rest) with
    | none =>
      simp only [splitGo, hN, hRidx, htake, hdrop, hrec]
    | some iN =>
      have hmap : findCharIdx '\n' (a ++ t :: rest) =
          (findCharIdx '\n' rest).map (· + (a.length + 1)) := by
        apply hfree '\n' (fun d hd => (ha d hd).1)
        rw [ht]; decide
      rw [hmap] at hN
      cases hfn : findCharIdx '\n' rest with
      | none => rw [hfn] at hN; simp at hN
      | some j =>
        have hij : ¬ (j + (a.length + 1)) < a.length := by omega
        simp only [splitGo, hmap, hfn, Option.map_some', hRidx, if_neg hij, htake, hdrop, hrec]

/-- C8: the line splitter splits a buffered chunk at whichever of `'\n'` or
bare `'\r'` occurs first, repeatedly, and re-buffers the remainder after the
last terminator; on `"one\rtwo\nthree"` it yields `["one", "two"]` and
retains `"three"` as the pending partial remainder.  Conjuncts: the concrete
Scenario D; a terminator-free buffer is retained whole; the splitter peels
the leading line at the first terminator (of either kind) and recurses; and
the SSE route's `_split_log_lines` computes the same function. -/
theorem C8_split_at_first_terminator :
    (split_stream_buffer (("one\rtwo\nthree").toList) =
      ([("one").toList, ("two").toList], ("three").toList))
    ∧ (∀ b : Str, (∀ c ∈ b, c ≠ '\n' ∧ c ≠ '\r') → split_stream_buffer b = ([], b))
    ∧ (∀ (a rest : Str) (t : Char), (∀ c ∈ a, c ≠ '\n' ∧ c ≠ '\r') →
        (t = '\n' ∨ t = '\r') →
        split_stream_buffer (a ++ t :: rest) =
          (a :: (split_stream_buffer rest).1, (split_stream_buffer rest).2))
    ∧ (∀ b : Str, split_log_lines b = split_stream_buffer b) := by
  refine ⟨by decide, ?_, ?_, ?_⟩
  · intro b h
    exact split_stream_buffer_no_term h
  · intro a rest t ha ht
    exact split_stream_buffer_peel ha ht
  · intro b
    unfold split_log_lines split_stream_buffer
    exact splitLogGo_eq_splitGo b.length b

/-- Witness for C8: the peel conjunct applied at a concrete input. -/
theorem C8_split_at_first_terminator_witness :
    split_stream_buffer (("ab").toList ++ '\r' :: ("c").toList) =
      (("ab").toList :: (split_stream_buffer (("c").toList)).1,
        (split_stream_buffer (("c").toList)).2) :=
  C8_split_at_first_terminator.2.2.1 ("ab").toList ("c").toList '\r' (by decide)
    (Or.inr rfl)

/-! ## Log hub lemmas -/

theorem lastN_append (n : Nat) (l m : List Str) :
    lastN n (lastN n l ++ m) = lastN n (l ++ m) := by
  unfold lastN
  by_cases h : n ≤ l.length
  · have hk : (l.drop (l.length - n)).length = n := by
      simp only [List.length_drop]
      omega
    have hsplit : l ++ m = l.take (l.length - n) ++ (l.drop (l.length - n) ++ m) := by
      rw [← List.append_assoc, List.take_append_drop]
    have htl : (l.take (l.length - n)).length = l.length - n := by
      simp only [List.length_take]
      omega
    have hlhs : ((l.drop (l.length - n) ++ m).length) - n = m.length := by
      simp only [List.length_append, hk]
      omega
    have hr1 : (l ++ m).length - n = (l.take (l.length - n)).length + m.length := by
      simp only [List.length_append, htl]
      omega
    rw [hlhs, hr1, hsplit, List.drop_append]
  · have h0 : l.length - n = 0 := by omega
    rw [h0, List.drop_zero]

theorem publish_bufferSize (h : LogHub) (j line : Str) :
    (h.publish j line).bufferSize = h.bufferSize := rfl

theorem publishAll_bufferSize (j : Str) : ∀ (lines : List Str) (h : LogHub),
    (h.publishAll j lines).bufferSize = h.bufferSize := by
  intro lines
  induction lines with
  | nil => intro h; rfl
  | cons x rest ih =>
    intro h
    show ((h.publish j x).publishAll j rest).bufferSize = h.bufferSize
    rw [ih (h.publish j x)]
    rfl

theorem publish_buffers_self (h : LogHub) (j line : Str) :
    (h.publish j line).buffers j = lastN h.bufferSize (h.buffers j ++ [line]) := by
  simp [LogHub.publish]

theorem publishAll_init_buffers (n : Nat) (j : Str) (lines : List Str) :
    ((LogHub.init n).publishAll j lines).buffers j = lastN n lines := by
  induction lines using List.reverseRecOn with
  | nil => simp [LogHub.publishAll, LogHub.init, lastN]
  | append_singleton l x ih =>
    have hfold : (LogHub.init n).publishAll j (l ++ [x])
        = ((LogHub.init n).publishAll j l).publish j x := by
      simp [LogHub.publishAll, List.foldl_append]
    rw [hfold, publish_buffers_self, publishAll_bufferSize, ih]
    show lastN n (lastN n l ++ [x]) = lastN n (l ++ [x])
    exact lastN_append n l [x]

/-- C7: `publish` appends to a bounded FIFO replay buffer of fixed capacity
(oldest evicted first — after publishing `lines` from fresh, the buffer is
the last `bufferSize` of `lines` in order), and attempts a non-blocking
send to every currently-registered subscriber queue, leaving full queues
unchanged (never blocking); publishing `"line1"` then `"line2"` with no
subscriber and capacity ≥ 2, then subscribing, snapshots exactly
`["line1", "line2"]`. -/
theorem C7_log_hub_publish_subscribe :
    (∀ (n : Nat) (j : Str) (lines : List Str),
      ((LogHub.init n).publishAll j lines).buffers j = lastN n lines)
    ∧ (∀ (h : LogHub) (j line : Str),
        (h.publish j line).subscribers j
          = (h.subscribers j).map (putNowaitOrSkip line)
        ∧ ∀ q : SubQueue, putNowaitOrSkip line q
            = if q.items.length < q.maxsize then
                { q with items := q.items ++ [line] } else q)
    ∧ (∀ (n : Nat) (j l1 l2 : Str), 2 ≤ n →
        ((((LogHub.init n).publish j l1).publish j l2).subscribe j).2.2 = [l1, l2]) := by
  refine ⟨publishAll_init_buffers, ?_, ?_⟩
  · intro h j line
    constructor
    · simp [LogHub.publish]
    · intro q
      rfl
  · intro n j l1 l2 hn
    show ((((LogHub.init n).publish j l1).publish j l2).buffers j) = [l1, l2]
    rw [publish_buffers_self]
    have hb : ((LogHub.init n).publish j l1).bufferSize = n := rfl
    rw [hb, publish_buffers_self]
    have hbs : (LogHub.init n).bufferSize = n := rfl
    have hinit : (LogHub.init n).buffers j = [] := rfl
    rw [hbs, hinit]
    rw [lastN_append n ([] ++ [l1]) [l2]]
    show lastN n [l1, l2] = [l1, l2]
    unfold lastN
    have hz : ([l1, l2] : List Str).length - n = 0 := by
      simp only [List.length_cons, List.length_nil]
      omega
    rw [hz, List.drop_zero]

/-- Witness for C7. -/
theorem C7_log_hub_publish_subscribe_witness :
    ((((LogHub.init 2).publish ("j").toList ("line1").toList).publish ("j").toList
        ("line2").toList).subscribe ("j").toList).2.2
      = [("line1").toList, ("line2").toList] :=
  C7_log_hub_publish_subscribe.2.2 2 ("j").toList ("line1").toList ("line2").toList
    (by decide)

/-! ## Cancel / finalize / get -/

theorem Store.update_self (st : Store) (k : Str) (r : JobRec) : (st.update k r) k = r := by
  simp [Store.update]

/-- C3: for every job id whose metadata record exists, `cancel` returns
true; cancel on an already-terminal job is a no-op returning true; two
cancels in a row return true twice and the second changes nothing (one
terminal record); false exactly when the id resolves to no metadata (empty
stripped id or missing/unparsable/empty `job.json`). -/
theorem C3_cancel_idempotent :
    (∀ (st : Store) (id now : Str) (m : JMeta),
      pyStrip id ≠ [] → (st (pyStrip id)).meta = some m →
      (cancel st id now).1 = true)
    ∧ (∀ (st : Store) (id now : Str) (m : JMeta),
        pyStrip id ≠ [] → (st (pyStrip id)).meta = some m → metaTerminal m = true →
        cancel st id now = (true, st))
    ∧ (∀ (st : Store) (id now now' : Str) (m : JMeta),
        pyStrip id ≠ [] → (st (pyStrip id)).meta = some m →
        (cancel st id now).1 = true
        ∧ (cancel (cancel st id now).2 id now').1 = true
        ∧ (cancel (cancel st id now).2 id now').2 = (cancel st id now).2)
    ∧ (∀ (st : Store) (id now : Str),
        (cancel st id now).1 = false ↔
          (pyStrip id = [] ∨ (st (pyStrip id)).meta = none)) := by
  have hret : ∀ (st : Store) (id now : Str) (m : JMeta),
      pyStrip id ≠ [] → (st (pyStrip id)).meta = some m →
      (cancel st id now).1 = true := by
    intro st id now m hrid hm
    simp only [cancel, if_neg hrid, hm]
    by_cases ht : metaTerminal m
    · rw [if_pos ht]
    · rw [if_neg ht]
  have hterm : ∀ (st : Store) (id now : Str) (m : JMeta),
      pyStrip id ≠ [] → (st (pyStrip id)).meta = some m → metaTerminal m = true →
      cancel st id now = (true, st) := by
    intro st id now m hrid hm ht
    simp only [cancel, if_neg hrid, hm, if_pos ht]
  refine ⟨hret, hterm, ?_, ?_⟩
  · intro st id now now' m hrid hm
    by_cases ht : metaTerminal m
    · refine ⟨hret st id now m hrid hm, ?_, ?_⟩
      · rw [hterm st id now m hrid hm ht]
        exact hret st id now' m hrid hm
      · rw [hterm st id now m hrid hm ht, hterm st id now' m hrid hm ht]
    · have hstate : (cancel st id now).2
          = st.update (pyStrip id)
              { st (pyStrip id) with
                meta := some { m with status := some .canceled, finished_at := some now },
                sshKeyExists := false, secretEntry := false } := by
        simp only [cancel, if_neg hrid, hm, if_neg ht]
      have hm2 : ((cancel st id now).2 (pyStrip id)).meta
          = some { m with status := some .canceled, finished_at := some now } := by
        rw [hstate, Store.update_self]
      have hterm2 : metaTerminal { m with status := some .canceled, finished_at := some now }
          = true := by
        simp [metaTerminal]
      refine ⟨hret st id now m hrid hm, ?_, ?_⟩
      · exact hret _ id now' _ hrid hm2
      · rw [hterm (cancel st id now).2 id now' _ hrid hm2 hterm2]
  · intro st id now
    by_cases hrid : pyStrip id = []
    · simp only [cancel, if_pos hrid]
      simp [hrid]
    · cases hm : (st (pyStrip id)).meta with
      | none =>
        simp only [cancel, if_neg hrid, hm]
        simp [hrid]
      | some m =>
        have := hret st id now m hrid hm
        rw [this]
        simp [hrid, hm]

/-- Witness for C3: double cancel on a concrete single-job store. -/
theorem C3_cancel_idempotent_witness :
    (cancel
        (fun k => if k = ("j1").toList then
            { dirExists := true,
              meta := some { status := some JStatus.running },
              sshKeyExists := true, secretEntry := true }
          else {})
        ("j1").toList ("t2").toList).1 = true :=
  C3_cancel_idempotent.1
    (fun k => if k = ("j1").toList then
        { dirExists := true,
          meta := some { status := some JStatus.running },
          sshKeyExists := true, secretEntry := true }
      else {})
    ("j1").toList ("t2").toList { status := some JStatus.running }
    (by decide) (by decide)

/-- C4: the finalizer keeps a persisted `canceled` status — it only
back-fills a falsy `finished_at` and changes no other field; otherwise it
stamps `finished_at = now`, `exit_code = rc` and status
`succeeded`/`failed` by `rc == 0`; and `_wait_and_finalize` writes exactly
`finalizeMeta` of the re-loaded record. -/
theorem C4_finalizer_respects_cancel :
    ∀ (m : JMeta) (rc : Int) (now : Str),
      (m.status = some .canceled →
        (finalizeMeta m rc now).status = some .canceled
        ∧ (finalizeMeta m rc now).exit_code = m.exit_code
        ∧ (finalizeMeta m rc now).created_at = m.created_at
        ∧ (finalizeMeta m rc now).started_at = m.started_at
        ∧ (finalizeMeta m rc now).pid = m.pid
        ∧ (finalizeMeta m rc now).container_id = m.container_id
        ∧ ((m.finished_at = none ∨ m.finished_at = some []) →
            (finalizeMeta m rc now).finished_at = some now)
        ∧ (∀ s, m.finished_at = some s → s ≠ [] →
            (finalizeMeta m rc now).finished_at = some s))
      ∧ (m.status ≠ some .canceled →
          (finalizeMeta m rc now).finished_at = some now
          ∧ (finalizeMeta m rc now).exit_code = some rc
          ∧ (rc = 0 → (finalizeMeta m rc now).status = some .succeeded)
          ∧ (rc ≠ 0 → (finalizeMeta m rc now).status = some .failed))
      ∧ (∀ (st : Store) (jid : Str),
          ((waitAndFinalize st jid rc now) jid).meta
            = some (finalizeMeta ((st jid).meta.getD emptyMeta) rc now)) := by
  intro m rc now
  refine ⟨?_, ?_, ?_⟩
  · intro hc
    have hf : finalizeMeta m rc now
        = { m with finished_at := some (pyOrStr m.finished_at now) } := by
      unfold finalizeMeta
      rw [if_pos hc]
    rw [hf]
    refine ⟨hc, rfl, rfl, rfl, rfl, rfl, ?_, ?_⟩
    · intro hfa
      rcases hfa with hfa | hfa <;> simp [pyOrStr, hfa]
    · intro s hs hsne
      simp [pyOrStr, hs, hsne]
  · intro hnc
    have hf : finalizeMeta m rc now
        = { m with finished_at := some now, exit_code := some rc,
                   status := some (if rc = 0 then .succeeded else .failed) } := by
      unfold finalizeMeta
      rw [if_neg hnc]
    rw [hf]
    refine ⟨rfl, rfl, ?_, ?_⟩
    · intro h0
      simp [h0]
    · intro h0
      simp [h0]
  · intro st jid
    simp [waitAndFinalize, Store.update_self]

/-- Witness for C4 at a concrete canceled record. -/
theorem C4_finalizer_respects_cancel_witness :
    (finalizeMeta { status := some JStatus.canceled, finished_at := none } 0 (("t9").toList)).status
      = some JStatus.canceled :=
  ((C4_finalizer_respects_cancel { status := some JStatus.canceled, finished_at := none }
      0 (("t9").toList)).1 rfl).1

/-- C5 counterexample: cancel a running job — the resulting single terminal
record is `canceled` with `exit_code = none`: the cancel operation does
*not* set `exit_code`, contradicting the claim that a job reaching terminal
state via cancel has its exit code set by cancel. -/
theorem C5_counterexample_cancel_leaves_exit_code_unset :
    ((cancel
        (fun k => if k = ("j1").toList then
            { dirExists := true,
              meta := some { status := some JStatus.running, created_at := some ("t0").toList,
                             started_at := some ("t1").toList, pid := some 42 },
              sshKeyExists := true, secretEntry := true }
          else {})
        ("j1").toList ("t2").toList).1 = true)
    ∧ (((cancel
          (fun k => if k = ("j1").toList then
              { dirExists := true,
                meta := some { status := some JStatus.running, created_at := some ("t0").toList,
                               started_at := some ("t1").toList, pid := some 42 },
                sshKeyExists := true, secretEntry := true }
            else {})
          ("j1").toList ("t2").toList).2 ("j1").toList).meta
        = some { status := some JStatus.canceled, created_at := some ("t0").toList,
                 started_at := some ("t1").toList, finished_at := some ("t2").toList,
                 pid := some 42, exit_code := none, container_id := none }) := by
  constructor
  · decide
  · decide

/-- C5 amended: `exit_code` is written only by the finalizer (or the
launch-failure path), never by cancel; on a job already canceled the racing
finalizer leaves `exit_code` unchanged (so a job that reaches terminal
state via cancel keeps `exit_code` unset); the finalizer sets it exactly
once, on the non-canceled path. -/
theorem C5_exit_code_set_only_by_finalizer :
    (∀ (st : Store) (id now k : Str),
      (((cancel st id now).2 k).meta).map JMeta.exit_code
        = ((st k).meta).map JMeta.exit_code)
    ∧ (∀ (m : JMeta) (rc : Int) (now : Str), m.status = some .canceled →
        (finalizeMeta m rc now).exit_code = m.exit_code)
    ∧ (∀ (m : JMeta) (rc : Int) (now : Str), m.status ≠ some .canceled →
        (finalizeMeta m rc now).exit_code = some rc)
    ∧ (∀ (st : Store) (id : Str) (m : JMeta) (now now' : Str) (rc : Int),
        pyStrip id ≠ [] → (st (pyStrip id)).meta = some m → metaTerminal m = false →
        (((waitAndFinalize (cancel st id now).2 (pyStrip id) rc now') (pyStrip id)).meta).map
            JMeta.exit_code
          = some m.exit_code) := by
  refine ⟨?_, ?_, ?_, ?_⟩
  · intro st id now k
    by_cases hrid : pyStrip id = []
    · simp only [cancel, if_pos hrid]
    · cases hm : (st (pyStrip id)).meta with
      | none => simp only [cancel, if_neg hrid, hm]
      | some m =>
        by_cases ht : metaTerminal m
        · simp only [cancel, if_neg hrid, hm, if_pos ht]
        · simp only [cancel, if_neg hrid, hm, if_neg ht]
          by_cases hk : k = pyStrip id
          · subst hk
            rw [Store.update_self, hm]
            rfl
          · have : (st.update (pyStrip id)
                { st (pyStrip id) with
                  meta := some { m with status := some .canceled, finished_at := some now },
                  sshKeyExists := false, secretEntry := false }) k = st k := by
              simp [Store.update, hk]
            rw [this]
  · intro m rc now hc
    simp [finalizeMeta, if_pos hc]
  · intro m rc now hnc
    simp [finalizeMeta, if_neg hnc]
  · intro st id m now now' rc hrid hm ht
    have hstate : (cancel st id now).2
        = st.update (pyStrip id)
            { st (pyStrip id) with
              meta := some { m with status := some .canceled, finished_at := some now },
              sshKeyExists := false, secretEntry := false } := by
      simp only [cancel, if_neg hrid, hm]
      rw [if_neg (by simp [ht])]
    have hload : ((st.update (pyStrip id)
        { st (pyStrip id) with
          meta := some { m with status := some .canceled, finished_at := some now },
          sshKeyExists := false, secretEntry := false }) (pyStrip id)).meta
        = some { m with status := some .canceled, finished_at := some now } := by
      rw [Store.update_self]
    have hfexit :
        (finalizeMeta { m with status := some JStatus.canceled, finished_at := some now }
            rc now').exit_code = m.exit_code := by
      unfold finalizeMeta
      rw [if_pos rfl]
    rw [hstate]
    simp only [waitAndFinalize, Store.update_self, hload, Option.getD_some, Option.map_some']
    rw [hfexit]

/-- Witness for C5's amended theorem: cancel on a one-job store does not
touch `exit_code`. -/
theorem C5_exit_code_set_only_by_finalizer_witness :
    (((cancel
        (fun k => if k = ("j1").toList then
            { dirExists := true, meta := some { status := some JStatus.running },
              sshKeyExists := true, secretEntry := true }
          else {})
        ("j1").toList ("t2").toList).2 ("j1").toList).meta).map JMeta.exit_code
      = (((fun k => if k = ("j1").toList then
            { dirExists := true, meta := some { status := some JStatus.running },
              sshKeyExists := true, secretEntry := true }
          else ({} : JobRec)) ("j1").toList).meta).map JMeta.exit_code :=
  C5_exit_code_set_only_by_finalizer.1
    (fun k => if k = ("j1").toList then
        { dirExists := true, meta := some { status := some JStatus.running },
          sshKeyExists := true, secretEntry := true }
      else {})
    ("j1").toList ("t2").toList ("j1").toList

/-- C10: when the job directory exists but `job.json` is missing or
unparsable, `get` does not raise: the loaded metadata is the empty record,
the status defaults to `queued` and `created_at` defaults to the current
time; NotFound arises exactly from a missing job directory. -/
theorem C10_get_missing_meta_defaults :
    (∀ (st : Store) (id now : Str),
      pyStrip id ≠ [] → (st (pyStrip id)).dirExists = true →
      (st (pyStrip id)).meta = none →
      get st id now = .ok
        { job_id := pyStrip id, status := .queued, created_at := now,
          started_at := none, finished_at := none, pid := none,
          exit_code := none, container_id := none })
    ∧ (∀ (st : Store) (id now : Str),
        pyStrip id ≠ [] → (st (pyStrip id)).dirExists = false →
        get st id now = .error 404) := by
  constructor
  · intro st id now hrid hdir hm
    simp only [get, if_neg hrid, hdir, hm]
    rfl
  · intro st id now hrid hdir
    simp only [get, if_neg hrid, hdir]
    rfl

/-- Witness for C10 on a concrete store with a directory but no metadata. -/
theorem C10_get_missing_meta_defaults_witness :
    get (fun _ => { dirExists := true }) ("j1").toList ("t0").toList
      = .ok { job_id := ("j1").toList, status := .queued, created_at := ("t0").toList,
              started_at := none, finished_at := none, pid := none,
              exit_code := none, container_id := none } :=
  C10_get_missing_meta_defaults.1 (fun _ => { dirExists := true })
    ("j1").toList ("t0").toList (by decide) rfl rfl

/-- C6: when the launcher raises during `create`, the job's metadata is
rewritten to `failed` / `exit_code 127` / `finished_at now`, the caller
receives an internal-error (500) response, and the metadata trace goes from
`queued` directly to `failed` — no write with status `running` ever
happens. -/
theorem C6_launch_failure_queued_to_failed :
    ∀ (cid? : Option Str) (msg now : Str),
      (∃ e, (createRun true (.ok cid?) (.error msg) now).1 = .error e ∧ e.status = 500)
      ∧ (∃ mF, (createRun true (.ok cid?) (.error msg) now).2.getLast? = some mF
          ∧ mF.status = some .failed ∧ mF.exit_code = some 127 ∧ mF.finished_at = some now)
      ∧ (createRun true (.ok cid?) (.error msg) now).2.head? = some (queuedMeta now)
      ∧ (∀ m ∈ (createRun true (.ok cid?) (.error msg) now).2,
          m.status = some .queued ∨ m.status = some .failed)
      ∧ (∀ m ∈ (createRun true (.ok cid?) (.error msg) now).2,
          m.status ≠ some .running) := by
  intro cid? msg now
  cases cid? with
  | none =>
    have htrace : (createRun true (Except.ok (none : Option Str)) (.error msg) now).2
        = [queuedMeta now,
           { queuedMeta now with status := some .failed, finished_at := some now,
                                 exit_code := some 127 }] := rfl
    refine ⟨⟨_, rfl, rfl⟩, ⟨_, rfl, rfl, rfl, rfl⟩, rfl, ?_, ?_⟩
    · intro m hm
      rw [htrace] at hm
      simp only [List.mem_cons, List.not_mem_nil, or_false] at hm
      rcases hm with rfl | rfl
      · left; rfl
      · right; rfl
    · intro m hm
      rw [htrace] at hm
      simp only [List.mem_cons, List.not_mem_nil, or_false] at hm
      rcases hm with rfl | rfl
      · simp [queuedMeta]
      · simp [queuedMeta]
  | some cid =>
    have htrace : (createRun true (Except.ok (some cid)) (.error msg) now).2
        = [queuedMeta now,
           { queuedMeta now with container_id := some cid },
           { queuedMeta now with container_id := some cid, status := some .failed,
                                 finished_at := some now, exit_code := some 127 }] := rfl
    refine ⟨⟨_, rfl, rfl⟩, ⟨_, rfl, rfl, rfl, rfl⟩, rfl, ?_, ?_⟩
    · intro m hm
      rw [htrace] at hm
      simp only [List.mem_cons, List.not_mem_nil, or_false] at hm
      rcases hm with rfl | rfl | rfl
      · left; rfl
      · left; rfl
      · right; rfl
    · intro m hm
      rw [htrace] at hm
      simp only [List.mem_cons, List.not_mem_nil, or_false] at hm
      rcases hm with rfl | rfl | rfl
      · simp [queuedMeta]
      · simp [queuedMeta]
      · simp [queuedMeta]

/-- Witness for C6 (the `∀ m ∈ …` conjuncts are hypotheses): apply at a
concrete member of the concrete trace. -/
theorem C6_launch_failure_queued_to_failed_witness :
    (∃ e, (createRun true (.ok none) (.error ("boom").toList) ("t0").toList).1 = .error e
      ∧ e.status = 500) :=
  (C6_launch_failure_queued_to_failed none ("boom").toList ("t0").toList).1

/-! ## Container configuration (C9) -/

theorem envStrip_some (s : Str) : envStrip (some s) = pyStrip s := rfl

theorem pyStrip_nil : pyStrip [] = [] := rfl

theorem pyOrStr_image_nil {a b : Option Str} (ha : envStrip a = []) (hb : envStrip b = []) :
    pyStrip (pyOrStr a (pyOrStr b [])) = [] := by
  have hbcase : pyStrip (pyOrStr b []) = [] := by
    cases b with
    | none => rfl
    | some t =>
      by_cases htt : t = []
      · simp [pyOrStr, htt]
        rfl
      · simp [pyOrStr, htt]
        exact hb
  cases a with
  | none =>
    simp [pyOrStr]
    exact hbcase
  | some s =>
    by_cases hs : s = []
    · simp [pyOrStr, hs]
      exact hbcase
    · simp [pyOrStr, hs]
      exact ha

/-- C9: the container backend fails `create` with a configuration error
(HTTP 500) before any process is spawned whenever the container settings
are missing or invalid — no image reference; `STATE_HOST_PATH` unset or not
absolute; job directory not inside the configured state directory — and on
success the bind mount is exactly the host state path extended by the job
directory's position below the state directory (never a wrong mount).  The
last conjunct shows the failure happens before the launcher: the outcome of
`create` is independent of the launch oracle and the only metadata write is
the initial `queued` record. -/
theorem C9_container_config_fail_fast :
    (∀ env : ContainerEnv, envStrip env.job_runner_image = [] →
        envStrip env.infinito_nexus_image = [] →
        ∃ e, load_container_config env = .error e ∧ e.status = 500)
    ∧ (∀ (env : ContainerEnv) (jd : PathM), envStrip env.state_host_path = [] →
        ∃ e, resolve_host_job_dir env jd = .error e ∧ e.status = 500)
    ∧ (∀ (env : ContainerEnv) (jd : PathM), envStrip env.state_host_path ≠ [] →
        (parsePath (envStrip env.state_host_path)).absolute = false →
        ∃ e, resolve_host_job_dir env jd = .error e ∧ e.status = 500)
    ∧ (∀ (env : ContainerEnv) (jd : PathM),
        relativeTo jd (parsePath (pyStrip (pyOrStr env.state_dir ("/state").toList))) = none →
        ∃ e, resolve_host_job_dir env jd = .error e ∧ e.status = 500)
    ∧ (∀ (env : ContainerEnv) (jd hp : PathM),
        resolve_host_job_dir env jd = .ok hp →
        ∃ rel, jd.segs
            = (parsePath (pyStrip (pyOrStr env.state_dir ("/state").toList))).segs ++ rel
          ∧ hp.segs = (parsePath (envStrip env.state_host_path)).segs ++ rel)
    ∧ (∀ (env : ContainerEnv) (jd : PathM) (jid now : Str) (e : HttpErr)
        (launch1 launch2 : Except Str Int),
        containerConfigStage env jd jid = .error e →
        createRun true (containerConfigStage env jd jid) launch1 now
          = createRun true (containerConfigStage env jd jid) launch2 now
        ∧ (createRun true (containerConfigStage env jd jid) launch1 now).1 = .error e
        ∧ (createRun true (containerConfigStage env jd jid) launch1 now).2
            = [queuedMeta now]) := by
  refine ⟨?_, ?_, ?_, ?_, ?_, ?_⟩
  · intro env ha hb
    have himg := pyOrStr_image_nil ha hb
    refine ⟨⟨500, ("JOB_RUNNER_IMAGE (or INFINITO_NEXUS_IMAGE) must be set for container runner").toList⟩, ?_, rfl⟩
    simp only [load_container_config, himg]
    rfl
  · intro env jd hhs
    refine ⟨⟨500, ("STATE_HOST_PATH must be set for container runner volume mounts").toList⟩, ?_, rfl⟩
    simp only [resolve_host_job_dir, hhs]
    rfl
  · intro env jd hne habs
    refine ⟨⟨500, ("STATE_HOST_PATH").toList ++ (" must be an absolute path when using JOB_RUNNER_BACKEND=container").toList⟩, ?_, rfl⟩
    simp only [resolve_host_job_dir, if_neg hne]
    unfold require_absolute
    simp only [habs]
    rfl
  · intro env jd hrel
    by_cases hhs : envStrip env.state_host_path = []
    · refine ⟨⟨500, ("STATE_HOST_PATH must be set for container runner volume mounts").toList⟩, ?_, rfl⟩
      simp only [resolve_host_job_dir, hhs]
      rfl
    · cases hra : require_absolute (envStrip env.state_host_path)
          (("STATE_HOST_PATH").toList) with
      | error e =>
        refine ⟨e, ?_, ?_⟩
        · simp only [resolve_host_job_dir, if_neg hhs, hra]
        · unfold require_absolute at hra
          by_cases habs : (parsePath (envStrip env.state_host_path)).absolute
          · simp [habs] at hra
          · simp [habs] at hra
            rw [← hra]
      | ok hp0 =>
        refine ⟨⟨500, ("job_dir is not inside STATE_DIR").toList⟩, ?_, rfl⟩
        simp only [resolve_host_job_dir, if_neg hhs, hra, hrel]
  · intro env jd hp h
    by_cases hhs : envStrip env.state_host_path = []
    · simp only [resolve_host_job_dir, hhs] at h
      cases h
    · simp only [resolve_host_job_dir, if_neg hhs] at h
      cases hra : require_absolute (envStrip env.state_host_path)
          (("STATE_HOST_PATH").toList) with
      | error e =>
        rw [hra] at h
        cases h
      | ok hp0 =>
        rw [hra] at h
        cases hrel : relativeTo jd
            (parsePath (pyStrip (pyOrStr env.state_dir ("/state").toList))) with
        | none =>
          rw [hrel] at h
          cases h
        | some rel =>
          rw [hrel] at h
          have hp0eq : hp0 = parsePath (envStrip env.state_host_path) := by
            unfold require_absolute at hra
            by_cases habs : (parsePath (envStrip env.state_host_path)).absolute
            · simp [habs] at hra
              exact hra.symm
            · simp [habs] at hra
          have hhp : hp = { absolute := hp0.absolute, segs := hp0.segs ++ rel.segs } := by
            cases h
            rfl
          unfold relativeTo at hrel
          by_cases hcond : jd.absolute
              = (parsePath (pyStrip (pyOrStr env.state_dir ("/state").toList))).absolute
              && decide ((parsePath (pyStrip (pyOrStr env.state_dir ("/state").toList))).segs
                <+: jd.segs)
          · rw [if_pos hcond] at hrel
            have hpre : (parsePath (pyStrip (pyOrStr env.state_dir
                ("/state").toList))).segs <+: jd.segs := by
              have := (Bool.and_eq_true _ _).mp hcond
              exact of_decide_eq_true this.2
            obtain ⟨t, ht⟩ := hpre
            refine ⟨t, ht.symm, ?_⟩
            have hrelsegs : rel.segs = jd.segs.drop
                (parsePath (pyStrip (pyOrStr env.state_dir ("/state").toList))).segs.length := by
              cases hrel
              rfl
            rw [hhp, hp0eq, hrelsegs, ← ht, List.drop_left]
          · rw [if_neg hcond] at hrel
            cases hrel
  · intro env jd jid now e launch1 launch2 he
    rw [he]
    exact ⟨rfl, rfl, rfl⟩

/-- Witness for C9: a concrete environment with no image configured. -/
theorem C9_container_config_fail_fast_witness :
    ∃ e, load_container_config {} = .error e ∧ e.status = 500 :=
  C9_container_config_fail_fast.1 {} rfl rfl

/-! ## Masking no-leak machinery

The key structural facts: every rewrite step of `mask_secrets` produces an
output that is a concatenation of contiguous slices of its input separated
by non-empty blocks of `'*'` (the mask marker), so any `'*'`-free string
occurring in the output already occurred in the input; and the replacement
pass for a secret `s` itself removes every occurrence of `s`. -/

theorem MASK_ne_nil : MASK ≠ [] := by decide

theorem MASK_all_star : ∀ c ∈ MASK, c = '*' := by decide

theorem prefixAppendCases {α : Type} {s u v : List α} (h : s <+: u ++ v) :
    s <+: u ∨ ∃ s₂, s = u ++ s₂ ∧ s₂ <+: v := by
  induction u generalizing s with
  | nil =>
    right
    exact ⟨s, by simp, by simpa using h⟩
  | cons a u' ih =>
    rw [List.cons_append] at h
    rcases List.prefix_cons_iff.mp h with rfl | ⟨t, rfl, ht⟩
    · left; exact List.nil_prefix
    · rcases ih ht with h1 | ⟨s₂, rfl, h2⟩
      · left; exact List.cons_prefix_cons.mpr ⟨rfl, h1⟩
      · right; exact ⟨s₂, by simp, h2⟩

theorem infixAppendCases {α : Type} {s u v : List α} (h : s <:+: u ++ v) :
    s <:+: u ∨ s <:+: v ∨
      ∃ s₁ s₂, s = s₁ ++ s₂ ∧ s₁ ≠ [] ∧ s₂ ≠ [] ∧ s₁ <:+ u ∧ s₂ <+: v := by
  induction u generalizing s with
  | nil =>
    right; left
    simpa using h
  | cons a u' ih =>
    rw [List.cons_append] at h
    rcases List.infix_cons_iff.mp h with hp | hi
    · rcases List.prefix_cons_iff.mp hp with rfl | ⟨t, rfl, ht⟩
      · left; exact ⟨[], a :: u', by simp⟩
      · rcases prefixAppendCases ht with h1 | ⟨s₂, rfl, h2⟩
        · left; exact (List.cons_prefix_cons.mpr ⟨rfl, h1⟩).isInfix
        · by_cases hs2 : s₂ = []
          · subst hs2
            left
            rw [List.append_nil]
          · right; right
            exact ⟨a :: u', s₂, by simp, by simp, hs2, List.suffix_rfl, h2⟩
    · rcases ih hi with h1 | h2 | ⟨s₁, s₂, rfl, hn1, hn2, hsuf, hpre⟩
      · left; exact List.infix_cons_iff.mpr (Or.inr h1)
      · right; left; exact h2
      · right; right
        exact ⟨s₁, s₂, rfl, hn1, hn2, hsuf.trans (List.suffix_cons a u'), hpre⟩

theorem starOfSuffixMask {s₁ u : List Char} (h : s₁ <:+ u ++ MASK) (hne : s₁ ≠ []) :
    '*' ∈ s₁ := by
  have h1 : (u ++ MASK).getLast? = s₁.getLast? := by
    obtain ⟨t, ht⟩ := h
    rw [← ht, List.getLast?_append]
    cases hl : s₁.getLast? with
    | none => exact absurd (List.getLast?_eq_none_iff.mp hl) hne
    | some x => rfl
  have h2 : (u ++ MASK).getLast? = some '*' := by
    rw [List.getLast?_append]
    have hm : MASK.getLast? = some '*' := by decide
    rw [hm]
    rfl
  rw [h2] at h1
  exact List.mem_of_getLast?_eq_some h1.symm

theorem starOfInfixMask {s : List Char} (h : s <:+: MASK) (hne : s ≠ []) : '*' ∈ s := by
  cases s with
  | nil => exact absurd rfl hne
  | cons c cs =>
    have hc : c ∈ MASK := h.subset (List.mem_cons_self c cs)
    have : c = '*' := MASK_all_star c hc
    rw [← this]
    exact List.mem_cons_self c cs

theorem starOfPrefixMaskApp {s x : List Char} (h : s <+: MASK ++ x) (hne : s ≠ []) :
    '*' ∈ s := by
  cases s with
  | nil => exact absurd rfl hne
  | cons c cs =>
    have hmk : MASK ++ x = '*' :: (('*' :: '*' :: '*' :: '*' :: '*' :: '*' :: '*' :: []) ++ x) := rfl
    rw [hmk] at h
    have := (List.cons_prefix_cons.mp h).1
    rw [this]
    exact List.mem_cons_self _ cs

theorem scanSub_prefixInv {tryFn : Str → Option (Nat × Str)} (hg : GoodTry tryFn) :
    ∀ (fuel : Nat) (t s : Str), '*' ∉ s → s <+: scanSub tryFn fuel t → s <+: t := by
  intro fuel
  induction fuel with
  | zero => intro t s _ h; exact h
  | succ fuel ih =>
    intro t s hstar h
    cases t with
    | nil =>
      simp only [scanSub] at h
      rcases List.prefix_nil.mp h with rfl
      exact List.nil_prefix
    | cons c rest =>
      cases htry : tryFn (c :: rest) with
      | some kr =>
        obtain ⟨k, rep⟩ := kr
        obtain ⟨hk1, g, hrep⟩ := hg _ _ _ htry
        simp only [scanSub, htry] at h
        rw [hrep, List.append_assoc] at h
        rcases prefixAppendCases h with h1 | ⟨s₂, rfl, h2⟩
        · exact h1.trans (List.take_prefix g (c :: rest))
        · by_cases hs2 : s₂ = []
          · subst hs2
            rw [List.append_nil]
            exact List.take_prefix g (c :: rest)
          · exact absurd (List.mem_append.mpr (Or.inr (starOfPrefixMaskApp h2 hs2))) hstar
      | none =>
        simp only [scanSub, htry] at h
        rcases List.prefix_cons_iff.mp h with rfl | ⟨t', rfl, ht'⟩
        · exact List.nil_prefix
        · have hstar' : '*' ∉ t' := fun hm => hstar (List.mem_cons_of_mem c hm)
          exact List.cons_prefix_cons.mpr ⟨rfl, ih rest t' hstar' ht'⟩

theorem scanSub_infixInv {tryFn : Str → Option (Nat × Str)} (hg : GoodTry tryFn) :
    ∀ (fuel : Nat) (t s : Str), s ≠ [] → '*' ∉ s → s <:+: scanSub tryFn fuel t →
      s <:+: t := by
  intro fuel
  induction fuel with
  | zero => intro t s _ _ h; exact h
  | succ fuel ih =>
    intro t s hne hstar h
    cases t with
    | nil =>
      simp only [scanSub] at h
      exact absurd (List.infix_nil.mp h) hne
    | cons c rest =>
      cases htry : tryFn (c :: rest) with
      | some kr =>
        obtain ⟨k, rep⟩ := kr
        obtain ⟨hk1, g, hrep⟩ := hg _ _ _ htry
        simp only [scanSub, htry] at h
        rw [hrep] at h
        rcases infixAppendCases h with h1 | h2 | ⟨s₁, s₂, rfl, hn1, hn2, hsuf, hpre⟩
        · rcases infixAppendCases h1 with h1a | h1b | ⟨s₁, s₂, rfl, hn1, hn2, hsuf, hpre⟩
          · exact h1a.trans (List.take_prefix g (c :: rest)).isInfix
          · exact absurd (starOfInfixMask h1b hne) hstar
          · refine absurd (List.mem_append.mpr (Or.inr ?_)) hstar
            have hpre' : s₂ <+: MASK ++ [] := by rw [List.append_nil]; exact hpre
            exact starOfPrefixMaskApp hpre' hn2
        · exact (ih _ s hne hstar h2).trans (List.drop_suffix k (c :: rest)).isInfix
        · exact absurd (List.mem_append.mpr (Or.inl (starOfSuffixMask hsuf hn1))) hstar
      | none =>
        simp only [scanSub, htry] at h
        rcases List.infix_cons_iff.mp h with hp | hi
        · rcases List.prefix_cons_iff.mp hp with rfl | ⟨t', rfl, ht'⟩
          · exact absurd rfl hne
          · have hstar' : '*' ∉ t' := fun hm => hstar (List.mem_cons_of_mem c hm)
            have := scanSub_prefixInv hg fuel rest t' hstar' ht'
            exact (List.cons_prefix_cons.mpr ⟨rfl, this⟩).isInfix
        · exact List.infix_cons_iff.mpr (Or.inr (ih rest s hne hstar hi))

theorem tryReplace_good (sec : Str) : GoodTry (tryReplace sec) := by
  intro t k rep h
  unfold tryReplace at h
  by_cases hc : (decide (sec ≠ []) && sec.isPrefixOf t) = true
  · rw [if_pos hc] at h
    injection h with h12
    injection h12 with hk hrep
    constructor
    · rw [← hk]
      have : sec ≠ [] := of_decide_eq_true ((Bool.and_eq_true _ _).mp hc).1
      exact List.length_pos.mpr this
    · exact ⟨0, by rw [← hrep]; simp⟩
  · rw [if_neg hc] at h
    cases h

theorem scanSub_removes (sec : Str) (hne : sec ≠ []) (hstar : '*' ∉ sec) :
    ∀ (fuel : Nat) (t : Str), t.length ≤ fuel →
      ¬ sec <:+: scanSub (tryReplace sec) fuel t := by
  intro fuel
  induction fuel with
  | zero =>
    intro t hlen h
    have ht : t = [] := List.eq_nil_of_length_eq_zero (Nat.le_zero.mp hlen)
    subst ht
    exact hne (List.infix_nil.mp h)
  | succ fuel ih =>
    intro t hlen h
    cases t with
    | nil =>
      simp only [scanSub] at h
      exact hne (List.infix_nil.mp h)
    | cons c rest =>
      cases htry : tryReplace sec (c :: rest) with
      | some kr =>
        obtain ⟨k, rep⟩ := kr
        have hdef := htry
        unfold tryReplace at hdef
        by_cases hc : (decide (sec ≠ []) && sec.isPrefixOf (c :: rest)) = true
        · rw [if_pos hc] at hdef
          injection hdef with h12
          injection h12 with hk hrep
          simp only [scanSub, htry] at h
          rw [← hrep, ← hk] at h
          rcases infixAppendCases h with h1 | h2 | ⟨s₁, s₂, heq, hn1, hn2, hsuf, hpre⟩
          · exact hstar (starOfInfixMask h1 hne)
          · have hsl : 1 ≤ sec.length := List.length_pos.mpr hne
            have hfl : (List.drop sec.length (c :: rest)).length ≤ fuel := by
              simp only [List.length_drop, List.length_cons] at *
              omega
            exact ih _ hfl h2
          · apply hstar
            rw [heq]
            have hsuf' : s₁ <:+ [] ++ MASK := by rw [List.nil_append]; exact hsuf
            exact List.mem_append.mpr (Or.inl (starOfSuffixMask hsuf' hn1))
        · rw [if_neg hc] at hdef
          cases hdef
      | none =>
        simp only [scanSub, htry] at h
        rcases List.infix_cons_iff.mp h with hp | hi
        · rcases List.prefix_cons_iff.mp hp with h0 | ⟨t', hst, ht'⟩
          · exact hne h0
          · have hstar' : '*' ∉ t' := by
              intro hm
              exact hstar (hst ▸ List.mem_cons_of_mem c hm)
            have ht'' : t' <+: rest :=
              scanSub_prefixInv (tryReplace_good sec) fuel rest t' hstar' ht'
            have hpre : sec <+: c :: rest := by
              rw [hst]
              exact List.cons_prefix_cons.mpr ⟨rfl, ht''⟩
            have hcond : (decide (sec ≠ []) && sec.isPrefixOf (c :: rest)) = true := by
              rw [Bool.and_eq_true]
              exact ⟨decide_eq_true hne, List.isPrefixOf_iff_prefix.mpr hpre⟩
            unfold tryReplace at htry
            rw [if_pos hcond] at htry
            cases htry
        · have hfl : rest.length ≤ fuel := by
            simp only [List.length_cons] at hlen
            omega
          exact ih rest hfl hi

theorem emitRun_cases (run : Str) : emitRun run = MASK ∨ emitRun run = run := by
  unfold emitRun
  split
  · exact Or.inl rfl
  · exact Or.inr rfl

theorem tokenGo_prefixInv : ∀ (l acc s : Str), '*' ∉ s → s <+: tokenGo acc l →
    s <+: acc ++ l := by
  intro l
  induction l with
  | nil =>
    intro acc s hstar h
    simp only [tokenGo] at h
    rcases emitRun_cases acc with he | he
    · rw [he] at h
      by_cases hs : s = []
      · subst hs; exact List.nil_prefix
      · have h' : s <+: MASK ++ [] := by rw [List.append_nil]; exact h
        exact absurd (starOfPrefixMaskApp h' hs) hstar
    · rw [he] at h
      rw [List.append_nil]
      exact h
  | cons c rest ih =>
    intro acc s hstar h
    simp only [tokenGo] at h
    by_cases htc : tokenChar c
    · rw [if_pos htc] at h
      have := ih (acc ++ [c]) s hstar h
      rw [List.append_assoc] at this
      simpa using this
    · rw [if_neg htc] at h
      rcases prefixAppendCases h with h1 | ⟨s₂, rfl, h2⟩
      · rcases emitRun_cases acc with he | he
        · rw [he] at h1
          by_cases hs : s = []
          · subst hs; exact List.nil_prefix
          · have h' : s <+: MASK ++ [] := by rw [List.append_nil]; exact h1
            exact absurd (starOfPrefixMaskApp h' hs) hstar
        · rw [he] at h1
          exact h1.trans (List.prefix_append acc (c :: rest))
      · rcases emitRun_cases acc with he | he
        · exfalso
          apply hstar
          rw [he]
          exact List.mem_append.mpr (Or.inl (by decide))
        · rw [he]
          rcases List.prefix_cons_iff.mp h2 with rfl | ⟨t', rfl, ht'⟩
          · rw [List.append_nil]
            exact List.prefix_append acc (c :: rest)
          · have hstar2 : '*' ∉ t' := by
              intro hm
              apply hstar
              rw [he]
              exact List.mem_append.mpr (Or.inr (List.mem_cons_of_mem c hm))
            have ht2 := ih [] t' hstar2 ht'
            rw [List.nil_append] at ht2
            obtain ⟨q, hq⟩ := ht2
            exact ⟨q, by rw [← hq]; simp⟩

theorem tokenGo_infixInv : ∀ (l acc s : Str), s ≠ [] → '*' ∉ s → s <:+: tokenGo acc l →
    s <:+: acc ++ l := by
  intro l
  induction l with
  | nil =>
    intro acc s hne hstar h
    simp only [tokenGo] at h
    rcases emitRun_cases acc with he | he
    · rw [he] at h
      exact absurd (starOfInfixMask h hne) hstar
    · rw [he] at h
      rw [List.append_nil]
      exact h
  | cons c rest ih =>
    intro acc s hne hstar h
    simp only [tokenGo] at h
    by_cases htc : tokenChar c
    · rw [if_pos htc] at h
      have := ih (acc ++ [c]) s hne hstar h
      rw [List.append_assoc] at this
      simpa using this
    · rw [if_neg htc] at h
      rcases infixAppendCases h with h1 | h2 | ⟨s₁, s₂, rfl, hn1, hn2, hsuf, hpre⟩
      · rcases emitRun_cases acc with he | he
        · rw [he] at h1
          exact absurd (starOfInfixMask h1 hne) hstar
        · rw [he] at h1
          exact h1.trans (List.prefix_append acc (c :: rest)).isInfix
      · rcases List.infix_cons_iff.mp h2 with hp | hi
        · rcases List.prefix_cons_iff.mp hp with rfl | ⟨t', rfl, ht'⟩
          · exact absurd rfl hne
          · have hstar2 : '*' ∉ t' := fun hm => hstar (List.mem_cons_of_mem c hm)
            have ht2 := tokenGo_prefixInv rest [] t' hstar2 ht'
            rw [List.nil_append] at ht2
            obtain ⟨q, hq⟩ := ht2
            exact ⟨acc, q, by rw [← hq]; simp⟩
        · have := ih [] s hne hstar hi
          rw [List.nil_append] at this
          obtain ⟨p, q, hpq⟩ := this
          exact ⟨acc ++ c :: p, q, by rw [← hpq]; simp⟩
      · rcases emitRun_cases acc with he | he
        · rw [he] at hsuf
          have hsuf' : s₁ <:+ [] ++ MASK := by rw [List.nil_append]; exact hsuf
          exact absurd (List.mem_append.mpr (Or.inl (starOfSuffixMask hsuf' hn1))) hstar
        · rw [he] at hsuf
          rcases List.prefix_cons_iff.mp hpre with rfl | ⟨t', rfl, ht'⟩
          · exact absurd rfl hn2
          · have hstar2 : '*' ∉ t' := by
              intro hm
              exact hstar (List.mem_append.mpr (Or.inr (List.mem_cons_of_mem c hm)))
            have ht2 := tokenGo_prefixInv rest [] t' hstar2 ht'
            rw [List.nil_append] at ht2
            obtain ⟨p, hp⟩ := hsuf
            obtain ⟨q, hq⟩ := ht2
            exact ⟨p, q, by rw [← hp, ← hq]; simp⟩

theorem tokenValueSub_infixInv {t s : Str} (hne : s ≠ []) (hstar : '*' ∉ s)
    (h : s <:+: tokenValueSub t) : s <:+: t := by
  have := tokenGo_infixInv t [] s hne hstar h
  rwa [List.nil_append] at this

theorem headerLen_pos {lit t : Str} {n : Nat} (hlit : lit ≠ [])
    (h : headerLen lit t = some n) : 1 ≤ n := by
  simp only [headerLen] at h
  by_cases hp : lit.isPrefixOf t
  · rw [if_pos hp] at h
    cases hps : pickSplit (("PRIVATE KEY-----").toList) (t.drop lit.length)
        ((t.drop lit.length).takeWhile isUpperOrSpace).length with
    | none => rw [hps] at h; cases h
    | some k =>
      rw [hps] at h
      injection h with h'
      have hl : 1 ≤ lit.length := List.length_pos.mpr hlit
      omega
  · rw [if_neg hp] at h
    cases h

theorem pemMatchLen_pos {t : Str} {n : Nat} (h : pemMatchLen t = some n) : 1 ≤ n := by
  simp only [pemMatchLen] at h
  cases hh : headerLen (("-----BEGIN ").toList) t with
  | none => simp only [hh] at h; exact Option.noConfusion h
  | some hd =>
    simp only [hh] at h
    cases he : findEndFrom (t.drop hd) with
    | none => simp only [he] at h; exact Option.noConfusion h
    | some je =>
      obtain ⟨j, e⟩ := je
      simp only [he, Option.some.injEq] at h
      have : 1 ≤ hd := headerLen_pos (by decide) hh
      omega

theorem tryPem_good : GoodTry tryPem := by
  intro t k rep h
  unfold tryPem at h
  cases hm : pemMatchLen t with
  | none => rw [hm] at h; cases h
  | some n =>
    rw [hm] at h
    injection h with h12
    injection h12 with hk hrep
    constructor
    · rw [← hk]
      exact pemMatchLen_pos hm
    · exact ⟨0, by rw [← hrep]; simp⟩

theorem tryKV_good : GoodTry tryKV := by
  intro t k rep h
  simp only [tryKV] at h
  cases hkw : findKeywordAt inlineKeywords t with
  | none => simp only [hkw] at h; exact Option.noConfusion h
  | some kw =>
    simp only [hkw] at h
    cases hr2 : (t.drop kw.length).drop ((t.drop kw.length).takeWhile isPySpace).length with
    | nil => simp only [hr2] at h; exact Option.noConfusion h
    | cons c r3 =>
      simp only [hr2] at h
      by_cases hce : (c = ':' || c = '=') = true
      · rw [if_pos hce] at h
        by_cases hv : (r3.drop (r3.takeWhile isPySpace).length).takeWhile
            (fun d => !isPySpace d) = []
        · rw [if_pos hv] at h
          cases h
        · rw [if_neg hv] at h
          injection h with h12
          injection h12 with hk hrep
          constructor
          · rw [← hk]
            have : 1 ≤ ((r3.drop (r3.takeWhile isPySpace).length).takeWhile
                (fun d => !isPySpace d)).length := by
              cases hv2 : (r3.drop (r3.takeWhile isPySpace).length).takeWhile
                  (fun d => !isPySpace d) with
              | nil => exact absurd hv2 hv
              | cons x xs => simp
            omega
          · exact ⟨kw.length + ((t.drop kw.length).takeWhile isPySpace).length + 1
              + (r3.takeWhile isPySpace).length, by rw [← hrep]⟩
      · rw [if_neg hce] at h
        cases h

theorem trySshpass_good : GoodTry trySshpass := by
  intro t k rep h
  simp only [trySshpass] at h
  by_cases h1 : ciPrefixOf (("sshpass").toList) t = true
  · rw [if_pos h1] at h
    by_cases h2 : ((t.drop 7).takeWhile isPySpace).length = 0
    · rw [if_pos h2] at h
      cases h
    · rw [if_neg h2] at h
      by_cases h3 : ciPrefixOf (("-p").toList)
          ((t.drop 7).drop ((t.drop 7).takeWhile isPySpace).length) = true
      · rw [if_pos h3] at h
        by_cases h4 : ((((t.drop 7).drop ((t.drop 7).takeWhile isPySpace).length).drop
            2).takeWhile isPySpace).length = 0
        · rw [if_pos h4] at h
          cases h
        · rw [if_neg h4] at h
          by_cases h5 : (((((t.drop 7).drop ((t.drop 7).takeWhile isPySpace).length).drop
              2).drop ((((t.drop 7).drop ((t.drop 7).takeWhile isPySpace).length).drop
              2).takeWhile isPySpace).length).takeWhile (fun d => !isPySpace d)) = []
          · rw [if_pos h5] at h
            cases h
          · rw [if_neg h5] at h
            injection h with h12
            injection h12 with hk hrep
            refine ⟨by omega, ?_⟩
            exact ⟨7 + ((t.drop 7).takeWhile isPySpace).length + 2
              + ((((t.drop 7).drop ((t.drop 7).takeWhile isPySpace).length).drop
                  2).takeWhile isPySpace).length, by rw [← hrep]⟩
      · rw [if_neg h3] at h
        cases h
  · rw [if_neg h1] at h
    cases h

theorem tryDashOpt_good (lit : Str) : GoodTry (tryDashOpt lit) := by
  intro t k rep h
  simp only [tryDashOpt] at h
  by_cases h1 : ciPrefixOf lit t = true
  · rw [if_pos h1] at h
    by_cases h2 : ((t.drop lit.length).takeWhile isPySpace).length = 0
    · rw [if_pos h2] at h
      cases h
    · rw [if_neg h2] at h
      by_cases h3 : (((t.drop lit.length).drop
          ((t.drop lit.length).takeWhile isPySpace).length).takeWhile
          (fun d => !isPySpace d)) = []
      · rw [if_pos h3] at h
        cases h
      · rw [if_neg h3] at h
        injection h with h12
        injection h12 with hk hrep
        refine ⟨by omega, ?_⟩
        exact ⟨lit.length + ((t.drop lit.length).takeWhile isPySpace).length,
          by rw [← hrep]⟩
  · rw [if_neg h1] at h
    cases h

theorem dedupeGo_mem : ∀ (l seen : List Str) (x : Str), x ∈ l → x ∉ seen →
    x ∈ dedupeGo seen l := by
  intro l
  induction l with
  | nil => intro seen x hx _; cases hx
  | cons y rest ih =>
    intro seen x hx hns
    simp only [dedupeGo]
    by_cases hy : y ∈ seen
    · rw [if_pos hy]
      rcases List.mem_cons.mp hx with rfl | hx'
      · exact absurd hy hns
      · exact ih seen x hx' hns
    · rw [if_neg hy]
      rcases List.mem_cons.mp hx with rfl | hx'
      · exact List.mem_cons_self x _
      · by_cases hxy : x = y
        · subst hxy
          exact List.mem_cons_self x _
        · refine List.mem_cons_of_mem y (ih (y :: seen) x hx' ?_)
          intro hmem
          rcases List.mem_cons.mp hmem with h' | h'
          · exact hxy h'
          · exact hns h'

theorem mem_insertByLen {x y : Str} : ∀ {l : List Str}, x ∈ l → x ∈ insertByLen y l := by
  intro l
  induction l with
  | nil => intro hx; cases hx
  | cons z rest ih =>
    intro hx
    simp only [insertByLen]
    by_cases hz : z.length ≤ y.length
    · rw [if_pos hz]
      exact List.mem_cons_of_mem y hx
    · rw [if_neg hz]
      rcases List.mem_cons.mp hx with rfl | hx'
      · exact List.mem_cons_self x _
      · exact List.mem_cons_of_mem z (ih hx')

theorem self_mem_insertByLen (y : Str) : ∀ (l : List Str), y ∈ insertByLen y l := by
  intro l
  induction l with
  | nil => exact List.mem_cons_self y []
  | cons z rest ih =>
    simp only [insertByLen]
    by_cases hz : z.length ≤ y.length
    · rw [if_pos hz]
      exact List.mem_cons_self y _
    · rw [if_neg hz]
      exact List.mem_cons_of_mem z ih

theorem mem_sortByLenDesc {x : Str} : ∀ {l : List Str}, x ∈ l → x ∈ sortByLenDesc l := by
  intro l
  induction l with
  | nil => intro hx; cases hx
  | cons y rest ih =>
    intro hx
    simp only [sortByLenDesc]
    rcases List.mem_cons.mp hx with rfl | hx'
    · exact self_mem_insertByLen x _
    · exact mem_insertByLen (ih hx')

theorem mem_sortSecretsDesc {secrets : List Str} {s : Str} (hmem : s ∈ secrets)
    (hne : s ≠ []) : s ∈ sortSecretsDesc secrets := by
  unfold sortSecretsDesc
  exact mem_sortByLenDesc
    (dedupeGo_mem _ [] s (List.mem_filter.mpr ⟨hmem, by simpa using hne⟩)
      (List.not_mem_nil s))

theorem foldlStep_preserve (s : Str) (hne : s ≠ []) (hstar : '*' ∉ s) :
    ∀ (l : List Str) (acc : Str), ¬ s <:+: acc →
      ¬ s <:+: List.foldl
        (fun acc sec => if sec ≠ [] ∧ sec <:+: acc then replaceSecret sec acc else acc)
        acc l := by
  intro l
  induction l with
  | nil => intro acc h; exact h
  | cons sec rest ih =>
    intro acc h
    simp only [List.foldl]
    apply ih
    by_cases hc : sec ≠ [] ∧ sec <:+: acc
    · rw [if_pos hc]
      intro hinf
      unfold replaceSecret at hinf
      exact h (scanSub_infixInv (tryReplace_good sec) acc.length acc s hne hstar hinf)
    · rw [if_neg hc]
      exact h

theorem maskKnownSecrets_no_leak (secrets : List Str) (s : Str)
    (hmem : s ∈ secrets) (hne : s ≠ []) (hstar : '*' ∉ s) (text : Str) :
    ¬ s <:+: maskKnownSecrets secrets text := by
  obtain ⟨l1, l2, hsplit⟩ := List.append_of_mem (mem_sortSecretsDesc hmem hne)
  unfold maskKnownSecrets
  rw [hsplit, List.foldl_append]
  simp only [List.foldl]
  apply foldlStep_preserve s hne hstar l2
  by_cases hc : s ≠ [] ∧ s <:+: List.foldl
      (fun acc sec => if sec ≠ [] ∧ sec <:+: acc then replaceSecret sec acc else acc)
      text l1
  · rw [if_pos hc]
    unfold replaceSecret
    exact scanSub_removes s hne hstar _ _ (Nat.le_refl _)
  · rw [if_neg hc]
    intro hinf
    exact hc ⟨hne, hinf⟩

theorem pemSub_infixInv {t s : Str} (hne : s ≠ []) (hstar : '*' ∉ s)
    (h : s <:+: pemSub t) : s <:+: t := by
  unfold pemSub at h
  by_cases hf : pemFound t = true
  · rw [if_pos hf] at h
    exact scanSub_infixInv tryPem_good t.length t s hne hstar h
  · rw [if_neg hf] at h
    exact h

theorem applyInline_infixInv {t s : Str} (hne : s ≠ []) (hstar : '*' ∉ s)
    (h : s <:+: applyInline t) : s <:+: t := by
  simp only [applyInline] at h
  have h4 := scanSub_infixInv (tryDashOpt_good (("--token").toList)) _ _ s hne hstar h
  have h3 := scanSub_infixInv (tryDashOpt_good (("--password").toList)) _ _ s hne hstar h4
  have h2 := scanSub_infixInv trySshpass_good _ _ s hne hstar h3
  exact scanSub_infixInv tryKV_good _ _ s hne hstar h2

/-- The central no-leak fact: a non-empty secret that contains no mask
character never survives `mask_secrets` — it is neither left in place nor
re-created by any later step of the pipeline. -/
theorem mask_secrets_no_leak (text : Str) (secrets : List Str) (s : Str)
    (hmem : s ∈ secrets) (hne : s ≠ []) (hstar : '*' ∉ s) :
    ¬ s <:+: mask_secrets text secrets := by
  by_cases ht : text = []
  · intro h
    rw [ht] at h
    exact hne (List.infix_nil.mp h)
  · simp only [mask_secrets, if_neg ht]
    intro h
    by_cases hj : jwtShaped (applyInline (pemSub (maskKnownSecrets secrets text))) = true
    · rw [if_pos hj] at h
      exact hstar (starOfInfixMask h hne)
    · rw [if_neg hj] at h
      have h3 : s <:+: applyInline (pemSub (maskKnownSecrets secrets text)) :=
        tokenValueSub_infixInv hne hstar h
      have h2 : s <:+: pemSub (maskKnownSecrets secrets text) :=
        applyInline_infixInv hne hstar h3
      have h1 : s <:+: maskKnownSecrets secrets text :=
        pemSub_infixInv hne hstar h2
      exact maskKnownSecrets_no_leak secrets s hmem hne hstar text h1

/-! ## C2: the spec's reference algorithm for `mask` -/

theorem foldl_nil_invariant : ∀ l : List Str,
    List.foldl
      (fun acc sec => if sec ≠ [] ∧ sec <:+: acc then replaceSecret sec acc else acc)
      [] l = [] := by
  intro l
  induction l with
  | nil => rfl
  | cons sec rest ih =>
    simp only [List.foldl]
    have hstep : (if sec ≠ [] ∧ sec <:+: ([] : Str) then replaceSecret sec [] else []) = [] := by
      split
      · rfl
      · rfl
    rw [hstep]
    exact ih

theorem maskKnownSecrets_nil (secrets : List Str) : maskKnownSecrets secrets [] = [] := by
  unfold maskKnownSecrets
  exact foldl_nil_invariant _

/-- C2 counterexample: on `"x abcdefghij1234567890 y"` with an empty secret
set, the code masks the embedded 20-character high-entropy run even though
the *entire* string does not match the token pattern, so `mask_secrets`
differs from the spec's literal step-(4) reference algorithm. -/
theorem C2_counterexample_partial_token_run :
    mask_secrets (("x abcdefghij1234567890 y").toList) []
        = (("x ******** y").toList)
    ∧ specMaskReference (("x abcdefghij1234567890 y").toList) []
        = (("x abcdefghij1234567890 y").toList)
    ∧ mask_secrets (("x abcdefghij1234567890 y").toList) []
        ≠ specMaskReference (("x abcdefghij1234567890 y").toList) [] := by
  refine ⟨by decide, by decide, by decide⟩

/-- C2 amended: `mask_secrets` equals the spec's four-step reference
algorithm with step (4) amended — replace the whole string if it is
JWT-shaped, and otherwise replace every *maximal high-entropy token run*
(not only a whole-string match). -/
theorem C2_mask_equals_amended_reference :
    ∀ (text : Str) (secrets : List Str),
      mask_secrets text secrets = specMaskAmended text secrets := by
  intro text secrets
  by_cases ht : text = []
  · subst ht
    have hr : specMaskAmended [] secrets = [] := by
      unfold specMaskAmended specMaskStep4Amended
      rw [maskKnownSecrets_nil]
      rfl
    rw [hr]
    rfl
  · simp only [mask_secrets, if_neg ht, specMaskAmended, specMaskStep4Amended]

/-! ## C1: the reader task and the persisted documents -/

theorem readerRun_eq_map : ∀ (chunks : List Str) (buf : Str) (secrets : List Str),
    readerRun secrets buf chunks
      = (rawLinesRun buf chunks).map (fun l => mask_secrets l secrets) := by
  intro chunks
  induction chunks with
  | nil =>
    intro buf secrets
    by_cases hb : buf = []
    · simp [readerRun, rawLinesRun, hb]
    · simp [readerRun, rawLinesRun, hb]
  | cons chunk rest ih =>
    intro buf secrets
    simp only [readerRun, rawLinesRun, List.map_append]
    rw [ih]

theorem logJoin_cons (l : Str) (rest : List Str) :
    logJoin (l :: rest) = l ++ '\n' :: logJoin rest := rfl

theorem logJoin_no_leak (s : Str) (hne : s ≠ []) (hnl : '\n' ∉ s) :
    ∀ lines : List Str, (∀ l ∈ lines, ¬ s <:+: l) → ¬ s <:+: logJoin lines := by
  intro lines
  induction lines with
  | nil =>
    intro _ h
    exact hne (List.infix_nil.mp h)
  | cons l rest ih =>
    intro hl h
    rw [logJoin_cons] at h
    rcases infixAppendCases h with h1 | h2 | ⟨s₁, s₂, rfl, hn1, hn2, hsuf, hpre⟩
    · exact hl l (List.mem_cons_self l rest) h1
    · rcases List.infix_cons_iff.mp h2 with hp | hi
      · rcases List.prefix_cons_iff.mp hp with rfl | ⟨t', rfl, ht'⟩
        · exact hne rfl
        · exact hnl (List.mem_cons_self '\n' t')
      · exact ih (fun l' hl' => hl l' (List.mem_cons_of_mem l hl')) hi
    · rcases List.prefix_cons_iff.mp hpre with rfl | ⟨t', rfl, ht'⟩
      · exact hn2 rfl
      · exact hnl (List.mem_append.mpr (Or.inr (List.mem_cons_self '\n' t')))

theorem jvStringsList_map_str : ∀ l : List Str, jvStringsList (l.map Jv.str) = l := by
  intro l
  induction l with
  | nil => rfl
  | cons x rest ih =>
    simp only [List.map, jvStringsList, jvStrings]
    rw [ih]
    rfl

/-- The string values of the persisted `request.json` document: the plain
request fields, the auth method, the optional limit and the role names —
and nothing else (no password, no private key). -/
theorem jvStrings_mask_request (req : DRequest) :
    jvStrings (mask_request_for_persistence req)
      = [req.workspace_id, req.deploy_target, req.host, req.user, req.auth.method]
        ++ (match req.limit with | none => [] | some l => [l])
        ++ req.selected_roles := by
  cases hl : req.limit with
  | none =>
    simp only [mask_request_for_persistence, jvStrings, jvStringsKvs, jvStringsList,
      optJv, hl, jvStringsList_map_str, mask_mapping, mask_mappingKvs]
    simp
  | some l =>
    simp only [mask_request_for_persistence, jvStrings, jvStringsKvs, jvStringsList,
      optJv, hl, jvStringsList_map_str, mask_mapping, mask_mappingKvs]
    simp

/-- The string values of the `vars.json`/`vars.yml` document built by
`_build_vars`: the selected role names plus either the key-file path or the
fixed password placeholder — the document is written with no masking and
contains no secret value. -/
theorem jvStrings_build_vars (req : DRequest) (path : Str) :
    jvStrings (build_vars req path)
      = req.selected_roles
        ++ (if req.auth.method = ("private_key").toList ∧ optTruthy req.auth.private_key
            then [path]
            else if req.auth.method = ("password").toList
            then [("<provided_at_runtime>").toList]
            else []) := by
  by_cases hb : (req.auth.method = ("private_key").toList && optTruthy req.auth.private_key)
      = true
  · have hp : req.auth.method = ("private_key").toList ∧ optTruthy req.auth.private_key := by
      have h' := (Bool.and_eq_true _ _).mp hb
      exact ⟨of_decide_eq_true h'.1, h'.2⟩
    rw [if_pos hp]
    simp only [build_vars, hb, if_true, jvStrings, jvStringsKvs, jvStringsList_map_str]
    simp
  · have hpneg : ¬ (req.auth.method = ("private_key").toList
        ∧ optTruthy req.auth.private_key) := by
      intro hp
      exact hb ((Bool.and_eq_true _ _).mpr ⟨decide_eq_true hp.1, hp.2⟩)
    rw [if_neg hpneg]
    have hb' : (req.auth.method = ("private_key").toList && optTruthy req.auth.private_key)
        = false := by
      cases hx : (req.auth.method = ("private_key").toList && optTruthy req.auth.private_key)
      · rfl
      · exact absurd hx hb
    by_cases hpw : req.auth.method = ("password").toList
    · rw [if_pos hpw]
      simp only [build_vars, hb', Bool.false_eq_true, if_false, if_pos hpw, jvStrings,
        jvStringsKvs, jvStringsList_map_str]
      simp
    · rw [if_neg hpw]
      simp only [build_vars, hb', Bool.false_eq_true, if_false, if_neg hpw, jvStrings,
        jvStringsKvs, jvStringsList_map_str]

/-- C1 counterexample: the claim's "never appear verbatim" consequence
fails on the code.  (a) A password made of mask characters (`"****"`)
still occurs verbatim inside the mask marker the reader writes to
`job.log`; (b)–(d) a password that the caller also supplies as a role name
is the job's collected secret yet occurs verbatim among the string values
of both the `vars.json`/`vars.yml` document and the persisted
`request.json` document (role names are not masked). -/
theorem C1_counterexample_secret_survives :
    (("****").toList <:+: mask_secrets (("pw is ****").toList) [("****").toList])
    ∧ ("hunter2").toList ∈ collect_secrets cexReq
    ∧ ("hunter2").toList ∈ jvStrings (build_vars cexReq (("/state/jobs/x/id_rsa").toList))
    ∧ ("hunter2").toList ∈ jvStrings (mask_request_for_persistence cexReq) := by
  refine ⟨by decide, by decide, by decide, by decide⟩

/-- C1 amended: (1) every line the reader emits (to `job.log` and to the
Log Hub) is exactly `mask_secrets(raw_line, secretSet)`, including the
trailing partial chunk; (2) any collected secret that is non-empty and
contains neither the mask character `'*'` nor a newline appears verbatim in
no published line and not in `job.log`; (3)–(4) the string values of the
persisted `request.json` are exactly the request's non-secret fields (auth
reduced to its method, `inventory_vars` empty), so such a secret appears
there only if the caller supplied it as one of those plain fields; (5) the
`vars` document's string values are exactly the role names plus the
key-file path or a fixed placeholder. -/
theorem C1_reader_masks_and_no_leak :
    (∀ (secrets : List Str) (buf : Str) (chunks : List Str),
      readerRun secrets buf chunks
        = (rawLinesRun buf chunks).map (fun l => mask_secrets l secrets))
    ∧ (∀ (req : DRequest) (chunks : List Str) (s : Str),
        s ∈ collect_secrets req → s ≠ [] → '*' ∉ s → '\n' ∉ s →
        (∀ line ∈ readerRun (collect_secrets req) [] chunks, ¬ s <:+: line)
        ∧ ¬ s <:+: readerLogContent (collect_secrets req) chunks)
    ∧ (∀ req : DRequest,
        jvStrings (mask_request_for_persistence req)
          = [req.workspace_id, req.deploy_target, req.host, req.user, req.auth.method]
            ++ (match req.limit with | none => [] | some l => [l])
            ++ req.selected_roles)
    ∧ (∀ (req : DRequest) (s : Str),
        (∀ v ∈ [req.workspace_id, req.deploy_target, req.host, req.user, req.auth.method]
            ++ (match req.limit with | none => [] | some l => [l])
            ++ req.selected_roles, ¬ s <:+: v) →
        ∀ v ∈ jvStrings (mask_request_for_persistence req), ¬ s <:+: v)
    ∧ (∀ (req : DRequest) (path : Str),
        jvStrings (build_vars req path)
          = req.selected_roles
            ++ (if req.auth.method = ("private_key").toList ∧ optTruthy req.auth.private_key
                then [path]
                else if req.auth.method = ("password").toList
                then [("<provided_at_runtime>").toList]
                else [])) := by
  refine ⟨fun secrets buf chunks => readerRun_eq_map chunks buf secrets, ?_,
    jvStrings_mask_request, ?_, jvStrings_build_vars⟩
  · intro req chunks s hmem hne hstar hnl
    have hlines : ∀ line ∈ readerRun (collect_secrets req) [] chunks, ¬ s <:+: line := by
      intro line hline
      rw [readerRun_eq_map] at hline
      obtain ⟨raw, _, rfl⟩ := List.mem_map.mp hline
      exact mask_secrets_no_leak raw (collect_secrets req) s hmem hne hstar
    exact ⟨hlines, logJoin_no_leak s hne hnl _ hlines⟩
  · intro req s hv v hvmem
    rw [jvStrings_mask_request] at hvmem
    exact hv v hvmem

/-- Witness for C1's amended theorem: the password `"hunter2"` of a
concrete request is absent from every emitted line and from the log
content for a concrete chunk sequence. -/
theorem C1_reader_masks_and_no_leak_witness :
    (∀ line ∈ readerRun (collect_secrets witReq) [] [("echo hi\n").toList],
        ¬ ("hunter2").toList <:+: line)
    ∧ ¬ ("hunter2").toList <:+:
        readerLogContent (collect_secrets witReq) [("echo hi\n").toList] :=
  C1_reader_masks_and_no_leak.2.1 witReq [("echo hi\n").toList] ("hunter2").toList
    (by decide) (by decide) (by decide) (by decide)

end Infinito
